import Mathlib

set_option maxHeartbeats 1000000

/-
Shallow embedding of the `HoistIntoGlobals` pass
(`iree/compiler/Dialect/Util/Transforms/HoistIntoGlobals.cpp`).

The IR is modelled positionally: an operation is identified by a numeric id,
a value is either the `idx`-th result of an operation or a block argument.
The module is modelled as three regions in module order: the globals region
(new globals are inserted at module begin), the original program body, and
the initializers region (appended at module end).  The external
`ConstExprAnalysis` and the policy oracles are parameters of the pass.
-/

namespace HoistGlobals

/-- A value in the IR: the `idx`-th result of the operation with id `op`,
or a block argument (e.g. a runtime function argument). -/
inductive Value where
  | result (op : Nat) (idx : Nat)
  | blockArg (n : Nat)
deriving DecidableEq, Repr

/-- The kind of an operation in the program body: an operation of the original
program, or a `util.global.load` inserted by the pass at an escape site
(recording the symbol of the loaded global). -/
inductive OpKind where
  | original
  | globalLoad (sym : Nat)
deriving DecidableEq, Repr

/-- An operation in the program body.  `resultTypes` gives the type of each
result (types are abstracted as naturals); `operands` is its current operand
list (mutable during the pass, as `operand->set` rewrites it in place). -/
structure Op where
  id : Nat
  kind : OpKind
  resultTypes : List Nat
  operands : List Value
deriving DecidableEq, Repr

/-- A `util.global` created by the pass: a unique symbol (the symbol table's
uniquing is modelled by a counter) and the type of the hoisted result. -/
structure GlobalOp where
  sym : Nat
  ty : Nat
deriving DecidableEq, Repr

/-- Per-operation info supplied by the external `ConstExprAnalysis`:
`isRoot` and `isConstExpr()`. -/
structure ConstExprInfo where
  isRoot : Bool
  constExpr : Bool
deriving DecidableEq, Repr

/-- The external collaborators of the pass: the const-expr analysis lookup
(keyed by operation id; operations created by the pass itself are unknown to
it), and the two policy oracles `isHoistableConstExprLeaf` (per operation) and
`isHoistableConstExprConsumingOperand` (per consuming operand position). -/
structure Analysis where
  lookup : Nat → Option ConstExprInfo
  leafOK : Nat → Bool
  operandOK : Nat → Nat → Bool

/-- Association list lookup (models `llvm::DenseMap::lookup`; insertion is
modelled by consing, so later insertions shadow earlier ones). -/
def alookup {α β : Type} [DecidableEq α] : List (α × β) → α → Option β
  | [], _ => none
  | (k, b) :: rest, a => if a = k then some b else alookup rest a

/-- Find the operation with the given id in a block's operation list. -/
def findOp : List Op → Nat → Option Op
  | [], _ => none
  | op :: rest, i => if op.id = i then some op else findOp rest i

/-- The current value held by operand `k` of the operation with id `c`. -/
def operandAt (prog : List Op) (c k : Nat) : Option Value :=
  match findOp prog c with
  | none => none
  | some op => op.operands.get? k

/-- Largest operation id occurring in a block (used to seed fresh ids). -/
def maxOpId (prog : List Op) : Nat :=
  prog.foldr (fun op m => max op.id m) 0

/-- Ids of the operations defining the operands of `op` (block arguments have
no defining operation). -/
def producersOf (op : Op) : List Nat :=
  op.operands.filterMap fun v =>
    match v with
    | Value.result d _ => some d
    | Value.blockArg _ => none

/-- Backward-slice marking: scanning the operations *before* the root in
reverse program order (consumers before producers, as the body is in SSA
dominance order), collect the ids of all transitive producers. -/
def sliceMarks : List Op → List Nat → List Nat
  | [], marked => marked
  | op :: rest, marked =>
      sliceMarks rest (if op.id ∈ marked then producersOf op ++ marked else marked)

/-- Models `getBackwardSlice(rootOp, &slice)`: all transitive producers of the
root's operands, in (topological) program order, the root excluded. -/
def getBackwardSlice (prog : List Op) (rootOp : Op) : List Op :=
  let before := prog.takeWhile fun op => op.id != rootOp.id
  let marked := sliceMarks before.reverse (producersOf rootOp)
  before.filter fun op => decide (op.id ∈ marked)

/-- A value inside an initializer body: an original program value left
unmapped by the clone mapping (MLIR's `clone` keeps such operands as-is), the
result of the `n`-th `util.global.load` created in this body by the slice
cloner, or result `idx` of the clone of source operation `srcId`. -/
inductive IVal where
  | orig (v : Value)
  | loadRes (n : Nat)
  | cloneRes (srcId : Nat) (idx : Nat)
deriving DecidableEq, Repr

/-- An operation in an initializer body: a load materializing an
already-hoisted value, a clone of a source operation (with remapped
operands), a store of a cloned result into a new global, or the terminator. -/
inductive InitItem where
  | load (sym : Nat)
  | clonedOp (srcId : Nat) (kind : OpKind) (operands : List IVal)
  | store (sym : Nat) (v : IVal)
  | ret
deriving DecidableEq, Repr

/-- A `util.initializer` appended at module end. -/
structure Initializer where
  body : List InitItem
deriving DecidableEq, Repr

/-- Local state of one `cloneConstExprInto` call: the initializer body built
so far, the `BlockAndValueMapping` from original values to initializer
values, and a counter for loads created in this body. -/
structure CloneState where
  body : List InitItem
  cmap : List (Value × IVal)
  loadCount : Nat
deriving Repr

/-- Remap one operand through the clone mapping; unmapped operands are kept
as the original value (MLIR `clone` semantics). -/
def remapOperand (cmap : List (Value × IVal)) (v : Value) : IVal :=
  (alookup cmap v).getD (IVal.orig v)

/-- The per-source-op result scan of the slice-cloning loop (the inner
`for (Value origResult : sourceOp->getResults())`): walk the result indices
in order; as long as results are found in the memo table, emit a load for
each, register it in the clone mapping, and clear `needsClone`; stop at the
first unmemoized result. -/
def mapHoisted (hoisted : List (Value × Nat)) (opId : Nat) :
    List Nat → CloneState → Bool → CloneState × Bool
  | [], cs, needsClone => (cs, needsClone)
  | i :: rest, cs, needsClone =>
    match alookup hoisted (Value.result opId i) with
    | none => (cs, needsClone)
    | some sym =>
        mapHoisted hoisted opId rest
          { body := cs.body ++ [InitItem.load sym]
            cmap := (Value.result opId i, IVal.loadRes cs.loadCount) :: cs.cmap
            loadCount := cs.loadCount + 1 } false

/-- Clone one operation into the initializer body, remapping its operands and
registering its results in the clone mapping (`Operation::clone(cloneMap)`). -/
def cloneOpInto (op : Op) (cs : CloneState) : CloneState :=
  { body := cs.body ++ [InitItem.clonedOp op.id op.kind (op.operands.map (remapOperand cs.cmap))]
    cmap := ((List.range op.resultTypes.length).map fun i =>
              (Value.result op.id i, IVal.cloneRes op.id i)) ++ cs.cmap
    loadCount := cs.loadCount }

/-- Process one operation of the backward slice (`for (Operation *sourceOp :
slice)` body): if its results are memoized, replace it by loads; otherwise
clone it. -/
def processSliceOp (hoisted : List (Value × Nat)) (cs : CloneState) (op : Op) : CloneState :=
  let r := mapHoisted hoisted op.id (List.range op.resultTypes.length) cs true
  if r.2 then cloneOpInto op r.1 else r.1

/-- The whole mutable state of the pass: the three module regions in module
order (globals first, program body, initializers last), the escape memo
table `hoistedMap` (value to global symbol), the symbol-table uniquing
counter and a fresh-id counter for operations created by the pass. -/
structure ModuleState where
  globals : List GlobalOp
  prog : List Op
  inits : List Initializer
  hoisted : List (Value × Nat)
  nextSym : Nat
  nextOpId : Nat
deriving Repr

/-- Models `cloneConstExprInto`: compute the backward slice of the defining
op, clone it (reusing already-hoisted globals) into a fresh initializer
appended at module end, clone the defining op itself, then create one global
per result of the defining op at module begin, register each in the memo
table, and store the corresponding cloned result; finally terminate the
body.  Missing defining op models the `assert`ed-impossible path and leaves
the state unchanged. -/
def cloneConstExprInto (s : ModuleState) (v : Value) : ModuleState :=
  match v with
  | Value.blockArg _ => s
  | Value.result rootId _ =>
    match findOp s.prog rootId with
    | none => s
    | some rootOp =>
      let slice := getBackwardSlice s.prog rootOp
      let cs1 := slice.foldl (processSliceOp s.hoisted) ⟨[], [], 0⟩
      let cs2 := cloneOpInto rootOp cs1
      let n := rootOp.resultTypes.length
      let newGlobals := (List.range n).map fun i =>
        GlobalOp.mk (s.nextSym + i) ((rootOp.resultTypes.get? i).getD 0)
      let stores := (List.range n).map fun i =>
        InitItem.store (s.nextSym + i) (remapOperand cs2.cmap (Value.result rootId i))
      let newHoisted := (List.range n).map fun i =>
        (Value.result rootId i, s.nextSym + i)
      { s with
        globals := newGlobals ++ s.globals
        inits := s.inits ++ [⟨cs2.body ++ stores ++ [InitItem.ret]⟩]
        hoisted := newHoisted ++ s.hoisted
        nextSym := s.nextSym + n }

/-- Insert `loadOp` immediately before the operation with id `ownerId` and
set that operation's operand `k` to the load's result
(`OpBuilder builder(targetOp); ... operand->set(load)`). -/
def insertLoadBefore (prog : List Op) (ownerId k : Nat) (loadOp : Op) : List Op :=
  match prog with
  | [] => []
  | op :: rest =>
    if op.id = ownerId then
      loadOp :: { op with operands := op.operands.set k (Value.result loadOp.id 0) } :: rest
    else
      op :: insertLoadBefore rest ownerId k loadOp

/-- Models `hoistConstExpr(operand, ...)` for the operand at position `k` of
the operation with id `ownerId`: if the operand's value has no memoized
global yet, clone its const-expr tree into a fresh initializer (which maps
it); then rewrite the operand in place to a load of the mapped global,
inserted immediately before the owner. -/
def hoistConstExpr (s : ModuleState) (ownerId k : Nat) : ModuleState :=
  match operandAt s.prog ownerId k with
  | none => s
  | some v =>
    let s1 := match alookup s.hoisted v with
              | some _ => s
              | none => cloneConstExprInto s v
    match alookup s1.hoisted v with
    | none => s1
    | some sym =>
      let ty := ((s1.globals.find? fun g => g.sym == sym).map GlobalOp.ty).getD 0
      let loadOp : Op := ⟨s1.nextOpId, OpKind.globalLoad sym, [ty], []⟩
      { s1 with
        prog := insertLoadBefore s1.prog ownerId k loadOp
        nextOpId := s1.nextOpId + 1 }

/-- The driver's first skip test on a consuming operation (`targetInfo &&
targetInfo->isConstExpr() && isHoistableConstExprLeaf(targetInfo)`). -/
def skipConsumer (an : Analysis) (ownerId : Nat) : Bool :=
  match an.lookup ownerId with
  | some ti => ti.constExpr && an.leafOK ownerId
  | none => false

/-- Is an operation accepted by the walk as a hoistable const-expr leaf
(info present, not a root, const-expr, and accepted by policy)? -/
def hoistableLeaf (an : Analysis) (opId : Nat) : Bool :=
  match an.lookup opId with
  | some info => !info.isRoot && info.constExpr && an.leafOK opId
  | none => false

/-- Process one consuming operand from the use snapshot (driver loop body):
skip const-expr hoistable-leaf consumers and operands rejected by the
policy; otherwise the use is a genuine escape and is hoisted. -/
def processOperandUse (an : Analysis) (s : ModuleState) (use : Nat × Nat) : ModuleState :=
  if skipConsumer an use.1 then s
  else if !an.operandOK use.1 use.2 then s
  else hoistConstExpr s use.1 use.2

/-- The consuming operand positions of value `v` within one operation. -/
def opUses (op : Op) (v : Value) : List (Nat × Nat) :=
  (List.range op.operands.length).filterMap fun k =>
    if op.operands.get? k = some v then some (op.id, k) else none

/-- Snapshot of all consuming operand positions of value `v` in the program
body (the driver snapshots `constExprResult.getUses()` before rewriting). -/
def usesOf (prog : List Op) (v : Value) : List (Nat × Nat) :=
  prog.flatMap fun op => opUses op v

/-- Process all uses of one const-expr result: snapshot them, then fold the
per-use processing over the snapshot. -/
def processResult (an : Analysis) (s : ModuleState) (v : Value) : ModuleState :=
  (usesOf s.prog v).foldl (processOperandUse an) s

/-- The walk callback for one operation: skip unless the analysis marks it
const-expr and non-root and policy accepts it as a hoistable leaf; then
process the uses of each of its results in order. -/
def processOp (an : Analysis) (s : ModuleState) (opId : Nat) : ModuleState :=
  if hoistableLeaf an opId then
    match findOp s.prog opId with
    | none => s
    | some op =>
      (List.range op.resultTypes.length).foldl
        (fun s' i => processResult an s' (Value.result opId i)) s
  else s

/-- The pre-order walk over the program: operations created during the walk
are unknown to the analysis and hence skipped, so the walk is a fold of
`processOp` over the original operation ids in program order. -/
def walkAll (an : Analysis) (s : ModuleState) (ids : List Nat) : ModuleState :=
  ids.foldl (processOp an) s

/-- The pass's state on entry: empty global/initializer regions, empty memo
table, fresh ids strictly above every program op id. -/
def initState (prog : List Op) : ModuleState :=
  ⟨[], prog, [], [], 0, maxOpId prog + 1⟩

/-- The result values of an operation. -/
def resultValues (op : Op) : List Value :=
  (List.range op.resultTypes.length).map (Value.result op.id)

/-- All values consumed by operands in the program body. -/
def usedValues (prog : List Op) : List Value :=
  prog.flatMap Op.operands

/-- Original program values leaking into an initializer value (only possible
through operands the clone mapping did not cover). -/
def ivalOrig : IVal → Option Value
  | IVal.orig v => some v
  | _ => none

/-- Original program values referenced by one initializer item. -/
def itemOrigUses : InitItem → List Value
  | InitItem.clonedOp _ _ ops => ops.filterMap ivalOrig
  | InitItem.store _ iv => (ivalOrig iv).toList
  | _ => []

/-- Original program values referenced from the initializer region (these
count as uses and keep their defining ops alive). -/
def initOrigUses (inits : List Initializer) : List Value :=
  inits.flatMap fun ini => ini.body.flatMap itemOrigUses

/-- Models `checkOp->use_empty()`: no result of `op` is consumed anywhere in
the module (program body or initializer region). -/
def useEmptyIn (prog : List Op) (extra : List Value) (op : Op) : Bool :=
  decide (∀ v ∈ resultValues op, v ∉ usedValues prog ∧ v ∉ extra)

/-- Erase the operation with the given id from the block. -/
def eraseOp (prog : List Op) (opId : Nat) : List Op :=
  prog.filter fun op => op.id != opId

/-- One scan of the dead-op worklist (`for (Operation *checkOp : worklist)`):
erase each use-free operation as it is encountered (so an erasure can expose
later worklist entries as use-free within the same scan), drop erased ids
from the working set, and report whether anything was erased. -/
def scanOnce (extra : List Value) : List Op → List Nat → List Op × List Nat × Bool
  | prog, [] => (prog, [], false)
  | prog, opId :: rest =>
    match findOp prog opId with
    | none =>
      let r := scanOnce extra prog rest
      (r.1, opId :: r.2.1, r.2.2)
    | some op =>
      if useEmptyIn prog extra op then
        let r := scanOnce extra (eraseOp prog opId) rest
        (r.1, r.2.1, true)
      else
        let r := scanOnce extra prog rest
        (r.1, opId :: r.2.1, r.2.2)

/-- Fuelled fixed-point iteration of the scan (`while (madeChanges)`). -/
def sweepN (extra : List Value) : Nat → List Op → List Nat → List Op × List Nat
  | 0, prog, pending => (prog, pending)
  | fuel + 1, prog, pending =>
    let r := scanOnce extra prog pending
    if r.2.2 then sweepN extra fuel r.1 r.2.1 else (r.1, r.2.1)

/-- The dead-op sweep run to its fixed point: each productive scan strictly
shrinks the working set, so `pending.length + 1` scans always reach the
fixed point. -/
def sweepLoop (extra : List Value) (prog : List Op) (pending : List Nat) : List Op × List Nat :=
  sweepN extra (pending.length + 1) prog pending

/-- Is `op` classified const-expr by the analysis? -/
def isConstExprOp (an : Analysis) (op : Op) : Bool :=
  match an.lookup op.id with
  | some info => info.constExpr
  | none => false

/-- Models `populateConstExprOperations`: the ids of all operations the
analysis classifies as const-expr. -/
def constExprOpIds (an : Analysis) (prog : List Op) : List Nat :=
  (prog.filter (isConstExprOp an)).map Op.id

/-- Models `cleanupDeadOps`: sweep the const-expr snapshot set to a fixed
point, erasing use-free operations from the program body. -/
def cleanupDeadOps (an : Analysis) (s : ModuleState) : ModuleState :=
  { s with prog := (sweepLoop (initOrigUses s.inits) s.prog (constExprOpIds an s.prog)).1 }

/-- Models `runOnOperation`: the pre-order walk followed by the dead-op
cleanup. -/
def runPass (an : Analysis) (prog : List Op) : ModuleState :=
  cleanupDeadOps an (walkAll an (initState prog) (prog.map Op.id))

/-- The globals a successful `cloneConstExprInto` call creates for the
results of the defining op, in creation order (typed to match each result). -/
def newGlobalsFor (base : Nat) (rootOp : Op) : List GlobalOp :=
  (List.range rootOp.resultTypes.length).map fun i =>
    GlobalOp.mk (base + i) ((rootOp.resultTypes.get? i).getD 0)

/-- The memo-table entries a successful `cloneConstExprInto` call adds. -/
def newHoistedFor (base rootId n : Nat) : List (Value × Nat) :=
  (List.range n).map fun i => (Value.result rootId i, base + i)

/-- The clone state after processing the backward slice and cloning the
defining op itself. -/
def sliceClone (s : ModuleState) (rootOp : Op) : CloneState :=
  cloneOpInto rootOp ((getBackwardSlice s.prog rootOp).foldl (processSliceOp s.hoisted) ⟨[], [], 0⟩)

/-- The initializer body a successful `cloneConstExprInto` call appends. -/
def newInitFor (s : ModuleState) (rootId : Nat) (rootOp : Op) : Initializer :=
  ⟨(sliceClone s rootOp).body ++
    ((List.range rootOp.resultTypes.length).map fun i =>
      InitItem.store (s.nextSym + i)
        (remapOperand (sliceClone s rootOp).cmap (Value.result rootId i))) ++
    [InitItem.ret]⟩

/-! Invariant and observation definitions used by the theorems. -/

/-- Well-formedness maintained by the pass: program op ids are distinct and
strictly below the fresh-id counter. -/
def WFState (s : ModuleState) : Prop :=
  (s.prog.map Op.id).Nodup ∧ ∀ op ∈ s.prog, op.id < s.nextOpId

/-- The all-or-none memoization invariant: for every operation in the program
body, either all of its results are in the memo table or none is. -/
def AllOrNone (s : ModuleState) : Prop :=
  ∀ op ∈ s.prog,
    (∀ i < op.resultTypes.length, (alookup s.hoisted (Value.result op.id i)).isSome = true) ∨
    (∀ i, alookup s.hoisted (Value.result op.id i) = none)

/-- Every memo-table key is a genuine result of an operation of the program
body. -/
def MemoKeys (s : ModuleState) : Prop :=
  ∀ p ∈ s.hoisted, ∃ op ∈ s.prog, ∃ i, i < op.resultTypes.length ∧ p.1 = Value.result op.id i

/-- One mutation step of the pass: some consuming operand is hoisted.  Every
state the pass passes through is reached from the initial state by such
steps (skipped uses leave the state unchanged). -/
inductive HoistStep : ModuleState → ModuleState → Prop where
  | mk (o k : Nat) (s : ModuleState) : HoistStep s (hoistConstExpr s o k)

/-- Symbols stored by an initializer body. -/
def initStoreSyms (ini : Initializer) : List Nat :=
  ini.body.filterMap fun it =>
    match it with
    | InitItem.store sym _ => some sym
    | _ => none

/-- Symbols loaded inside an initializer body (directly created loads, and
clones of escape-site loads). -/
def initLoadSyms (ini : Initializer) : List Nat :=
  ini.body.filterMap fun it =>
    match it with
    | InitItem.load sym => some sym
    | InitItem.clonedOp _ (OpKind.globalLoad sym) _ => some sym
    | _ => none

/-- Symbols loaded by escape-site loads in the program body. -/
def progLoadSyms (prog : List Op) : List Nat :=
  prog.filterMap fun op =>
    match op.kind with
    | OpKind.globalLoad sym => some sym
    | _ => none

/-- Symbols of the globals declared in the globals region. -/
def declaredSyms (s : ModuleState) : List Nat :=
  s.globals.map GlobalOp.sym

/-- `sym` is stored by some initializer with index strictly below `j`. -/
def storedBefore (s : ModuleState) (j : Nat) (sym : Nat) : Prop :=
  ∃ k < j, ∃ ini, s.inits.get? k = some ini ∧ sym ∈ initStoreSyms ini

/-- The symbol-referencing invariant maintained by the pass: memoized and
loaded symbols are declared and already stored by an earlier initializer;
store symbols are globally distinct and below the uniquing counter. -/
def SymInv (s : ModuleState) : Prop :=
  (∀ p ∈ s.hoisted, p.2 ∈ declaredSyms s ∧ storedBefore s s.inits.length p.2) ∧
  (∀ sym ∈ progLoadSyms s.prog, sym ∈ declaredSyms s ∧ storedBefore s s.inits.length sym) ∧
  (∀ j ini, s.inits.get? j = some ini →
    ∀ sym ∈ initLoadSyms ini, sym ∈ declaredSyms s ∧ storedBefore s j sym) ∧
  (s.inits.flatMap initStoreSyms).Nodup ∧
  (∀ sym ∈ s.inits.flatMap initStoreSyms, sym < s.nextSym) ∧
  (∀ sym ∈ declaredSyms s, sym < s.nextSym)

/-- One item of the transformed module in module order. -/
inductive ModuleItem where
  | global (g : GlobalOp)
  | bodyOp (op : Op)
  | initOp (ini : Initializer)
deriving DecidableEq, Repr

/-- The transformed module in linear module order: globals first, then the
program body, then the initializers. -/
def moduleItems (s : ModuleState) : List ModuleItem :=
  s.globals.map ModuleItem.global ++ s.prog.map ModuleItem.bodyOp ++
    s.inits.map ModuleItem.initOp

/-- The global symbols loaded by one module item. -/
def itemLoadSyms : ModuleItem → List Nat
  | ModuleItem.global _ => []
  | ModuleItem.bodyOp op =>
      match op.kind with
      | OpKind.globalLoad sym => [sym]
      | _ => []
  | ModuleItem.initOp ini => initLoadSyms ini

/-- A single justified erasure of the dead-op sweep: an operation of the
const-expr snapshot that is use-free at the moment it is erased. -/
inductive EraseStep (extra : List Value) (allowed : List Nat) : List Op → List Op → Prop where
  | mk (prog : List Op) (op : Op) :
      op ∈ prog → op.id ∈ allowed → useEmptyIn prog extra op = true →
      EraseStep extra allowed prog (eraseOp prog op.id)

/-- Example analysis for the two-constant-add module: operations 0 and 1 are
const-expr roots, operation 2 is a const-expr non-root accepted as a leaf. -/
def anB : Analysis :=
  ⟨fun n => if n ≤ 1 then some ⟨true, true⟩ else if n = 2 then some ⟨false, true⟩ else none,
   fun i => i == 2, fun _ _ => true⟩

/-- Example module: `%2 = add %0, %1` consumed by two runtime operations. -/
def progB : List Op :=
  [⟨0, OpKind.original, [7], []⟩,
   ⟨1, OpKind.original, [7], []⟩,
   ⟨2, OpKind.original, [7], [Value.result 0 0, Value.result 1 0]⟩,
   ⟨3, OpKind.original, [7], [Value.result 2 0, Value.blockArg 0]⟩,
   ⟨4, OpKind.original, [7], [Value.result 2 0, Value.blockArg 1]⟩]

/-- Example analysis for the chained module: operation 0 is a const-expr
root, operations 1 and 2 are const-expr non-root leaves. -/
def anC : Analysis :=
  ⟨fun n => if n = 0 then some ⟨true, true⟩ else if n ≤ 2 then some ⟨false, true⟩ else none,
   fun i => i == 1 || i == 2, fun _ _ => true⟩

/-- Example module with a chain `%1 = f %0; %2 = g %1` where both `%1` and
`%2` escape to runtime consumers, producing two initializers, the second
loading the first's global. -/
def progC : List Op :=
  [⟨0, OpKind.original, [7], []⟩,
   ⟨1, OpKind.original, [7], [Value.result 0 0]⟩,
   ⟨2, OpKind.original, [7], [Value.result 1 0]⟩,
   ⟨3, OpKind.original, [7], [Value.result 1 0, Value.blockArg 0]⟩,
   ⟨4, OpKind.original, [7], [Value.result 2 0, Value.blockArg 1]⟩]

/-! Basic lemmas about the association-list and operation lookups. -/

theorem alookup_append {α β : Type} [DecidableEq α] (l1 l2 : List (α × β)) (a : α) :
    alookup (l1 ++ l2) a =
      match alookup l1 a with
      | some b => some b
      | none => alookup l2 a := by
  induction l1 with
  | nil => simp [alookup]
  | cons p rest ih =>
    cases p with
    | mk k b =>
      by_cases h : a = k
      · simp [alookup, h]
      · simp [alookup, h, ih]

theorem alookup_rangeMap_eq_none {β : Type} (r n : Nat) (f : Nat → β) (v : Value)
    (h : ∀ i < n, v ≠ Value.result r i) :
    alookup ((List.range n).map fun i => (Value.result r i, f i)) v = none := by
  induction n with
  | zero => simp [alookup]
  | succ m ih =>
    rw [List.range_succ, List.map_append, alookup_append]
    rw [ih fun i hi => h i (Nat.lt_succ_of_lt hi)]
    simp [alookup, h m (Nat.lt_succ_self m)]

theorem alookup_rangeMap {β : Type} (r n j : Nat) (f : Nat → β) (h : j < n) :
    alookup ((List.range n).map fun i => (Value.result r i, f i)) (Value.result r j) =
      some (f j) := by
  induction n with
  | zero => omega
  | succ m ih =>
    rw [List.range_succ, List.map_append, alookup_append]
    by_cases hj : j < m
    · rw [ih hj]
    · have hjm : j = m := by omega
      subst hjm
      rw [alookup_rangeMap_eq_none]
      · simp [alookup]
      · intro i hi heq
        exact absurd (Value.result.injEq .. ▸ congrArg id heq) (by
          intro hc
          cases heq
          omega)

theorem findOp_id {prog : List Op} {i : Nat} {op : Op} (h : findOp prog i = some op) :
    op.id = i := by
  induction prog with
  | nil => simp [findOp] at h
  | cons hd rest ih =>
    by_cases hh : hd.id = i
    · simp [findOp, hh] at h
      cases h
      exact hh
    · rw [findOp, if_neg hh] at h
      exact ih h

theorem findOp_mem {prog : List Op} {i : Nat} {op : Op} (h : findOp prog i = some op) :
    op ∈ prog := by
  induction prog with
  | nil => simp [findOp] at h
  | cons hd rest ih =>
    by_cases hh : hd.id = i
    · simp [findOp, hh] at h
      simp [h]
    · rw [findOp, if_neg hh] at h
      exact List.mem_cons_of_mem hd (ih h)

theorem findOp_of_mem {prog : List Op} {op : Op} (hmem : op ∈ prog)
    (hnd : (prog.map Op.id).Nodup) : findOp prog op.id = some op := by
  induction prog with
  | nil => simp at hmem
  | cons hd rest ih =>
    simp only [List.map_cons, List.nodup_cons] at hnd
    rcases List.mem_cons.mp hmem with heq | hrest
    · subst heq
      simp [findOp]
    · have hne : hd.id ≠ op.id := by
        intro hc
        exact hnd.1 (hc ▸ List.mem_map_of_mem Op.id hrest)
      rw [findOp, if_neg hne]
      exact ih hrest hnd.2

theorem findOp_eq_none {prog : List Op} {i : Nat} (h : ∀ op ∈ prog, op.id ≠ i) :
    findOp prog i = none := by
  induction prog with
  | nil => rfl
  | cons hd rest ih =>
    rw [findOp, if_neg (h hd (List.mem_cons_self hd rest))]
    exact ih fun op hop => h op (List.mem_cons_of_mem hd hop)

/-! Lemmas about `insertLoadBefore`. -/

theorem insertLoadBefore_of_none {prog : List Op} {o k : Nat} {lop : Op}
    (h : findOp prog o = none) : insertLoadBefore prog o k lop = prog := by
  induction prog with
  | nil => rfl
  | cons hd rest ih =>
    rw [findOp] at h
    by_cases hh : hd.id = o
    · simp [hh] at h
    · rw [if_neg hh] at h
      rw [insertLoadBefore, if_neg hh, ih h]

theorem insertLoadBefore_decomp {prog : List Op} {o : Nat} {owner : Op}
    (h : findOp prog o = some owner) (k : Nat) (lop : Op) :
    ∃ pre post, prog = pre ++ owner :: post ∧ (∀ op ∈ pre, op.id ≠ o) ∧
      insertLoadBefore prog o k lop =
        pre ++ lop :: { owner with operands := owner.operands.set k (Value.result lop.id 0) }
          :: post := by
  induction prog with
  | nil => simp [findOp] at h
  | cons hd rest ih =>
    by_cases hh : hd.id = o
    · rw [findOp, if_pos hh] at h
      cases h
      exact ⟨[], rest, by simp, by simp, by rw [insertLoadBefore, if_pos hh]; simp⟩
    · rw [findOp, if_neg hh] at h
      obtain ⟨pre, post, h1, h2, h3⟩ := ih h
      refine ⟨hd :: pre, post, by simp [h1], ?_, ?_⟩
      · intro op hop
        rcases List.mem_cons.mp hop with heq | hp
        · exact heq ▸ hh
        · exact h2 op hp
      · rw [insertLoadBefore, if_neg hh, h3]
        simp

theorem findOp_insert_other {prog : List Op} {o d k : Nat} {lop : Op}
    (hd1 : d ≠ o) (hd2 : d ≠ lop.id) :
    findOp (insertLoadBefore prog o k lop) d = findOp prog d := by
  induction prog with
  | nil => rfl
  | cons hd rest ih =>
    by_cases hh : hd.id = o
    · rw [insertLoadBefore, if_pos hh]
      rw [findOp, if_neg (fun hc => hd2 hc.symm)]
      rw [findOp, if_neg (by simpa using hh ▸ fun hc => hd1 hc.symm)]
      rw [findOp, if_neg (by rw [show hd.id = o from hh]; exact fun hc => hd1 hc.symm)]
    · rw [insertLoadBefore, if_neg hh, findOp, findOp, ih]

theorem findOp_insert_owner {prog : List Op} {o k : Nat} {owner lop : Op}
    (h : findOp prog o = some owner) (hne : lop.id ≠ o) :
    findOp (insertLoadBefore prog o k lop) o =
      some { owner with operands := owner.operands.set k (Value.result lop.id 0) } := by
  induction prog with
  | nil => simp [findOp] at h
  | cons hd rest ih =>
    by_cases hh : hd.id = o
    · rw [findOp, if_pos hh] at h
      cases h
      rw [insertLoadBefore, if_pos hh, findOp, if_neg hne, findOp, if_pos hh]
    · rw [findOp, if_neg hh] at h
      rw [insertLoadBefore, if_neg hh, findOp, if_neg hh]
      exact ih h

theorem findOp_insert_self {prog : List Op} {o k : Nat} {owner lop : Op}
    (h : findOp prog o = some owner) (hfresh : ∀ op ∈ prog, op.id ≠ lop.id) :
    findOp (insertLoadBefore prog o k lop) lop.id = some lop := by
  induction prog with
  | nil => simp [findOp] at h
  | cons hd rest ih =>
    by_cases hh : hd.id = o
    · rw [insertLoadBefore, if_pos hh, findOp, if_pos rfl]
    · rw [findOp, if_neg hh] at h
      rw [insertLoadBefore, if_neg hh, findOp,
        if_neg (hfresh hd (List.mem_cons_self hd rest))]
      exact ih h fun op hop => hfresh op (List.mem_cons_of_mem hd hop)

theorem mem_insertLoadBefore {prog : List Op} {o k : Nat} {lop op' : Op}
    (h : op' ∈ insertLoadBefore prog o k lop) :
    op' = lop ∨ ∃ op ∈ prog, op'.id = op.id ∧ op'.kind = op.kind ∧
      op'.resultTypes = op.resultTypes := by
  induction prog with
  | nil => simp [insertLoadBefore] at h
  | cons hd rest ih =>
    by_cases hh : hd.id = o
    · rw [insertLoadBefore, if_pos hh] at h
      rcases List.mem_cons.mp h with h1 | h2
      · exact Or.inl h1
      rcases List.mem_cons.mp h2 with h3 | h4
      · exact Or.inr ⟨hd, List.mem_cons_self hd rest, by simp [h3]⟩
      · exact Or.inr ⟨op', List.mem_cons_of_mem hd h4, rfl, rfl, rfl⟩
    · rw [insertLoadBefore, if_neg hh] at h
      rcases List.mem_cons.mp h with h1 | h2
      · exact Or.inr ⟨hd, List.mem_cons_self hd rest, by simp [h1]⟩
      · rcases ih h2 with h3 | ⟨op, hop, he⟩
        · exact Or.inl h3
        · exact Or.inr ⟨op, List.mem_cons_of_mem hd hop, he⟩

theorem mem_id_insertLoadBefore {prog : List Op} {o k d : Nat} {lop : Op}
    (h : d ∈ (insertLoadBefore prog o k lop).map Op.id) :
    d = lop.id ∨ d ∈ prog.map Op.id := by
  rcases List.mem_map.mp h with ⟨op', hmem, hid⟩
  rcases mem_insertLoadBefore hmem with h1 | ⟨op, hop, he, _⟩
  · exact Or.inl (hid ▸ h1 ▸ rfl)
  · exact Or.inr (hid ▸ he ▸ List.mem_map_of_mem Op.id hop)

theorem nodup_insertLoadBefore {prog : List Op} {o k : Nat} {lop : Op}
    (hnd : (prog.map Op.id).Nodup) (hfresh : ∀ op ∈ prog, op.id ≠ lop.id) :
    ((insertLoadBefore prog o k lop).map Op.id).Nodup := by
  induction prog with
  | nil => simp [insertLoadBefore]
  | cons hd rest ih =>
    simp only [List.map_cons, List.nodup_cons] at hnd
    by_cases hh : hd.id = o
    · rw [insertLoadBefore, if_pos hh]
      simp only [List.map_cons, List.nodup_cons]
      refine ⟨?_, ?_, hnd.2⟩
      · intro hc
        rcases List.mem_cons.mp hc with h1 | h2
        · exact hfresh hd (List.mem_cons_self hd rest) h1.symm
        · rcases List.mem_map.mp h2 with ⟨op, hop, hide⟩
          exact hfresh op (List.mem_cons_of_mem hd hop) hide
      · exact hnd.1
    · rw [insertLoadBefore, if_neg hh]
      simp only [List.map_cons, List.nodup_cons]
      refine ⟨?_, ih hnd.2 fun op hop => hfresh op (List.mem_cons_of_mem hd hop)⟩
      intro hc
      rcases mem_id_insertLoadBefore hc with h1 | h2
      · exact hfresh hd (List.mem_cons_self hd rest) h1
      · exact hnd.1 h2

/-! Effect of `cloneConstExprInto` on the state. -/

theorem cloneConstExprInto_prog (s : ModuleState) (v : Value) :
    (cloneConstExprInto s v).prog = s.prog := by
  cases v with
  | blockArg n => rfl
  | result rootId i =>
    rw [cloneConstExprInto]
    cases findOp s.prog rootId <;> rfl

theorem cloneConstExprInto_nextOpId (s : ModuleState) (v : Value) :
    (cloneConstExprInto s v).nextOpId = s.nextOpId := by
  cases v with
  | blockArg n => rfl
  | result rootId i =>
    rw [cloneConstExprInto]
    cases findOp s.prog rootId <;> rfl

theorem cloneConstExprInto_eq {s : ModuleState} {rootId : Nat} {rootOp : Op}
    (h : findOp s.prog rootId = some rootOp) (i : Nat) :
    cloneConstExprInto s (Value.result rootId i) =
      { s with
        globals := newGlobalsFor s.nextSym rootOp ++ s.globals
        inits := s.inits ++ [newInitFor s rootId rootOp]
        hoisted := newHoistedFor s.nextSym rootId rootOp.resultTypes.length ++ s.hoisted
        nextSym := s.nextSym + rootOp.resultTypes.length } := by
  rw [cloneConstExprInto, h]
  rfl

theorem alookup_newHoistedFor {base rootId n j : Nat} (h : j < n) :
    alookup (newHoistedFor base rootId n) (Value.result rootId j) = some (base + j) :=
  alookup_rangeMap rootId n j (fun i => base + i) h

theorem alookup_newHoistedFor_ne {base rootId n : Nat} {v : Value}
    (h : ∀ i < n, v ≠ Value.result rootId i) :
    alookup (newHoistedFor base rootId n) v = none :=
  alookup_rangeMap_eq_none rootId n (fun i => base + i) v h

theorem cloneConstExprInto_maps {s : ModuleState} {rootId : Nat} {rootOp : Op}
    (h : findOp s.prog rootId = some rootOp) {i : Nat}
    (hi : i < rootOp.resultTypes.length) :
    alookup (cloneConstExprInto s (Value.result rootId i)).hoisted
      (Value.result rootId i) = some (s.nextSym + i) := by
  rw [cloneConstExprInto_eq h i]
  simp only
  rw [alookup_append, alookup_newHoistedFor hi]

theorem get?_set_self {α : Type} : ∀ (l : List α) (k : Nat) (a : α), k < l.length →
    (l.set k a).get? k = some a
  | [], k, a, h => by simp at h
  | x :: xs, 0, a, _ => rfl
  | x :: xs, k + 1, a, h => by
    simp only [List.set]
    exact get?_set_self xs k a (by simpa using h)

theorem get?_set_other {α : Type} : ∀ (l : List α) (k j : Nat) (a : α), k ≠ j →
    (l.set k a).get? j = l.get? j
  | [], _, _, _, _ => rfl
  | x :: xs, 0, 0, a, h => absurd rfl h
  | x :: xs, 0, j + 1, a, _ => rfl
  | x :: xs, k + 1, 0, a, _ => rfl
  | x :: xs, k + 1, j + 1, a, h =>
    get?_set_other xs k j a fun hc => h (by omega)

/-! The effect of `hoistConstExpr`. -/

theorem operandAt_some {prog : List Op} {c k : Nat} {v : Value}
    (h : operandAt prog c k = some v) :
    ∃ op, findOp prog c = some op ∧ op.operands.get? k = some v := by
  rw [operandAt] at h
  cases hf : findOp prog c with
  | none => rw [hf] at h; exact absurd h (by simp)
  | some op => rw [hf] at h; exact ⟨op, rfl, h⟩

theorem hoistConstExpr_eq_mapped {s : ModuleState} {o k : Nat} {v : Value} {sym : Nat}
    (hv : operandAt s.prog o k = some v) (hm : alookup s.hoisted v = some sym) :
    hoistConstExpr s o k =
      { s with
        prog := insertLoadBefore s.prog o k
          ⟨s.nextOpId, OpKind.globalLoad sym,
           [(((s.globals.find? fun g => g.sym == sym).map GlobalOp.ty).getD 0)], []⟩
        nextOpId := s.nextOpId + 1 } := by
  rw [hoistConstExpr, hv]
  simp only [hm]

theorem hoistConstExpr_eq_unmapped {s : ModuleState} {o k : Nat} {v : Value}
    (hv : operandAt s.prog o k = some v) (hm : alookup s.hoisted v = none) {sym : Nat}
    (hm2 : alookup (cloneConstExprInto s v).hoisted v = some sym) :
    hoistConstExpr s o k =
      { cloneConstExprInto s v with
        prog := insertLoadBefore s.prog o k
          ⟨s.nextOpId, OpKind.globalLoad sym,
           [((((cloneConstExprInto s v).globals.find? fun g => g.sym == sym).map
              GlobalOp.ty).getD 0)], []⟩
        nextOpId := s.nextOpId + 1 } := by
  rw [hoistConstExpr, hv]
  simp only [hm, hm2, cloneConstExprInto_prog, cloneConstExprInto_nextOpId]

theorem hoistConstExpr_eq_fail {s : ModuleState} {o k : Nat} {v : Value}
    (hv : operandAt s.prog o k = some v) (hm : alookup s.hoisted v = none)
    (hm2 : alookup (cloneConstExprInto s v).hoisted v = none) :
    hoistConstExpr s o k = cloneConstExprInto s v := by
  rw [hoistConstExpr, hv]
  simp only [hm, hm2]

theorem hoistConstExpr_eq_noOperand {s : ModuleState} {o k : Nat}
    (hv : operandAt s.prog o k = none) : hoistConstExpr s o k = s := by
  rw [hoistConstExpr, hv]

theorem get?_some_lt {α : Type} {l : List α} {k : Nat} {a : α}
    (h : l.get? k = some a) : k < l.length := by
  by_contra hc
  rw [List.get?_eq_none.mpr (by omega)] at h
  exact absurd h (by simp)

theorem hoistConstExpr_shape (s : ModuleState) (o k : Nat) :
    (hoistConstExpr s o k = s) ∨
    (∃ v, operandAt s.prog o k = some v ∧ hoistConstExpr s o k = cloneConstExprInto s v) ∨
    (∃ v s1 sym lop, operandAt s.prog o k = some v ∧
       (s1 = s ∨ (alookup s.hoisted v = none ∧ s1 = cloneConstExprInto s v)) ∧
       alookup s1.hoisted v = some sym ∧
       Op.id lop = s.nextOpId ∧ Op.kind lop = OpKind.globalLoad sym ∧
       Op.operands lop = [] ∧
       hoistConstExpr s o k =
         { s1 with prog := insertLoadBefore s.prog o k lop
                   nextOpId := s.nextOpId + 1 }) := by
  cases hv : operandAt s.prog o k with
  | none => exact Or.inl (hoistConstExpr_eq_noOperand hv)
  | some v =>
    cases hm : alookup s.hoisted v with
    | some sym =>
      refine Or.inr (Or.inr ⟨v, s, sym,
        ⟨s.nextOpId, OpKind.globalLoad sym,
         [(((s.globals.find? fun g => g.sym == sym).map GlobalOp.ty).getD 0)], []⟩,
        rfl, Or.inl rfl, hm, rfl, rfl, rfl, hoistConstExpr_eq_mapped hv hm⟩)
    | none =>
      cases hm2 : alookup (cloneConstExprInto s v).hoisted v with
      | none => exact Or.inr (Or.inl ⟨v, rfl, hoistConstExpr_eq_fail hv hm hm2⟩)
      | some sym =>
        refine Or.inr (Or.inr ⟨v, cloneConstExprInto s v, sym,
          ⟨s.nextOpId, OpKind.globalLoad sym,
           [((((cloneConstExprInto s v).globals.find? fun g => g.sym == sym).map
              GlobalOp.ty).getD 0)], []⟩,
          rfl, Or.inr ⟨hm, rfl⟩, hm2, rfl, rfl, rfl, hoistConstExpr_eq_unmapped hv hm hm2⟩)

theorem hoistConstExpr_nextOpId_ge (s : ModuleState) (o k : Nat) :
    s.nextOpId ≤ (hoistConstExpr s o k).nextOpId := by
  rcases hoistConstExpr_shape s o k with h | ⟨v, _, h⟩ | ⟨v, s1, sym, lop, _, _, _, _, _, _, h⟩
  · rw [h]
  · rw [h, cloneConstExprInto_nextOpId]
  · rw [h]; simp

theorem hoistConstExpr_WF {s : ModuleState} (hwf : WFState s) (o k : Nat) :
    WFState (hoistConstExpr s o k) := by
  rcases hoistConstExpr_shape s o k with h | ⟨v, _, h⟩ | ⟨v, s1, sym, lop, _, hs1, _, hid, _, _, h⟩
  · rw [h]; exact hwf
  · rw [h]
    exact ⟨cloneConstExprInto_prog s v ▸ hwf.1, fun op hmem => by
      rw [cloneConstExprInto_nextOpId]
      exact hwf.2 op (cloneConstExprInto_prog s v ▸ hmem)⟩
  · rw [h]
    constructor
    · simp only
      exact nodup_insertLoadBefore hwf.1 fun op hop hc => by
        have := hwf.2 op hop
        omega
    · intro op hmem
      simp only at hmem ⊢
      rcases mem_insertLoadBefore hmem with h1 | ⟨op', hop', hide, _⟩
      · rw [h1, hid]; omega
      · have := hwf.2 op' hop'
        omega

theorem hoistConstExpr_findOp_frame {s : ModuleState} {o k c : Nat}
    (hwf : WFState s) (hc : c < s.nextOpId) (hco : c ≠ o) :
    findOp (hoistConstExpr s o k).prog c = findOp s.prog c := by
  rcases hoistConstExpr_shape s o k with h | ⟨v, _, h⟩ | ⟨v, s1, sym, lop, _, hs1, _, hid, _, _, h⟩
  · rw [h]
  · rw [h, cloneConstExprInto_prog]
  · rw [h]
    simp only
    exact findOp_insert_other hco (by omega)

theorem hoistConstExpr_operandAt_frame {s : ModuleState} {o k c j : Nat}
    (hwf : WFState s) (hc : c < s.nextOpId) (hne : ¬(c = o ∧ j = k)) :
    operandAt (hoistConstExpr s o k).prog c j = operandAt s.prog c j := by
  by_cases hco : c = o
  · subst hco
    have hjk : j ≠ k := fun hc' => hne ⟨rfl, hc'⟩
    rcases hoistConstExpr_shape s c k with h | ⟨v, _, h⟩ | ⟨v, s1, sym, lop, _, hs1, _, hid, _, _, h⟩
    · rw [h]
    · rw [h, cloneConstExprInto_prog]
    · rw [h]
      simp only [operandAt]
      cases hf : findOp s.prog c with
      | none => rw [insertLoadBefore_of_none hf, hf]
      | some owner =>
        have hlne : lop.id ≠ c := by omega
        rw [findOp_insert_owner hf hlne]
        simp only
        exact get?_set_other owner.operands k j _ fun hc => hjk hc.symm
  · rw [operandAt, operandAt, hoistConstExpr_findOp_frame hwf hc hco]

theorem hoistConstExpr_rewrites {s : ModuleState} {o k rootId i : Nat} {rootOp : Op}
    (hwf : WFState s) (hv : operandAt s.prog o k = some (Value.result rootId i))
    (hroot : findOp s.prog rootId = some rootOp) (hi : i < rootOp.resultTypes.length) :
    ∃ sym lop, Op.id lop = s.nextOpId ∧ Op.kind lop = OpKind.globalLoad sym ∧
      Op.operands lop = [] ∧
      findOp (hoistConstExpr s o k).prog s.nextOpId = some lop ∧
      operandAt (hoistConstExpr s o k).prog o k = some (Value.result s.nextOpId 0) ∧
      (hoistConstExpr s o k).nextOpId = s.nextOpId + 1 ∧
      alookup (hoistConstExpr s o k).hoisted (Value.result rootId i) = some sym := by
  obtain ⟨owner, hfo, hget⟩ := operandAt_some hv
  have hofresh : ∀ op ∈ s.prog, op.id ≠ s.nextOpId := fun op hop hc => by
    have := hwf.2 op hop
    omega
  have holt : owner.id < s.nextOpId := hwf.2 owner (findOp_mem hfo)
  have hoid : owner.id = o := findOp_id hfo
  have hklen : k < owner.operands.length := get?_some_lt hget
  cases hm : alookup s.hoisted (Value.result rootId i) with
  | some sym =>
    rw [hoistConstExpr_eq_mapped hv hm]
    have hlne : (s.nextOpId : Nat) ≠ o := by omega
    refine ⟨sym, _, rfl, rfl, rfl, findOp_insert_self hfo hofresh, ?_, rfl, hm⟩
    simp only [operandAt]
    rw [findOp_insert_owner hfo hlne]
    simp only
    exact get?_set_self owner.operands k _ hklen
  | none =>
    have hm2 := cloneConstExprInto_maps hroot hi
    rw [hoistConstExpr_eq_unmapped hv hm hm2]
    have hlne : (s.nextOpId : Nat) ≠ o := by omega
    refine ⟨s.nextSym + i, _, rfl, rfl, rfl, findOp_insert_self hfo hofresh, ?_, rfl, hm2⟩
    simp only [operandAt]
    rw [findOp_insert_owner hfo hlne]
    simp only
    exact get?_set_self owner.operands k _ hklen

/-- C10: a call to `hoistConstExpr` on operand `k` of consumer `o` mutates the
pre-existing program only by setting that single operand to the result of one
freshly created global load inserted immediately before the consumer; all
other operands of the consumer and every other pre-existing operation are
unchanged, and all other insertions go into the module-level global and
initializer regions. -/
theorem hoistConstExpr_frame_single_operand
    (s : ModuleState) (o k rootId i : Nat) (rootOp : Op)
    (hwf : WFState s)
    (hv : operandAt s.prog o k = some (Value.result rootId i))
    (hroot : findOp s.prog rootId = some rootOp)
    (hi : i < rootOp.resultTypes.length) :
    ∃ pre post owner lop sym,
      s.prog = pre ++ owner :: post ∧ owner.id = o ∧
      Op.id lop = s.nextOpId ∧ Op.kind lop = OpKind.globalLoad sym ∧
      Op.operands lop = [] ∧
      (hoistConstExpr s o k).prog =
        pre ++ lop ::
          { owner with operands := owner.operands.set k (Value.result lop.id 0) } :: post ∧
      (∀ j, j ≠ k →
        (owner.operands.set k (Value.result lop.id 0)).get? j = owner.operands.get? j) ∧
      (∃ gs, (hoistConstExpr s o k).globals = gs ++ s.globals) ∧
      ((hoistConstExpr s o k).inits = s.inits ∨
        ∃ ini, (hoistConstExpr s o k).inits = s.inits ++ [ini]) := by
  obtain ⟨owner, hfo, hget⟩ := operandAt_some hv
  have hoid : owner.id = o := findOp_id hfo
  cases hm : alookup s.hoisted (Value.result rootId i) with
  | some sym =>
    rw [hoistConstExpr_eq_mapped hv hm]
    obtain ⟨pre, post, hsplit, _, hins⟩ := insertLoadBefore_decomp hfo k
      ⟨s.nextOpId, OpKind.globalLoad sym,
       [(((s.globals.find? fun g => g.sym == sym).map GlobalOp.ty).getD 0)], []⟩
    refine ⟨pre, post, owner, _, sym, hsplit, hoid, rfl, rfl, rfl, hins, ?_, ⟨[], rfl⟩, Or.inl rfl⟩
    intro j hj
    exact get?_set_other owner.operands k j _ fun hc => hj hc.symm
  | none =>
    have hm2 := cloneConstExprInto_maps hroot hi
    rw [hoistConstExpr_eq_unmapped hv hm hm2]
    obtain ⟨pre, post, hsplit, _, hins⟩ := insertLoadBefore_decomp hfo k
      ⟨s.nextOpId, OpKind.globalLoad (s.nextSym + i),
       [((((cloneConstExprInto s (Value.result rootId i)).globals.find?
          fun g => g.sym == s.nextSym + i).map GlobalOp.ty).getD 0)], []⟩
    refine ⟨pre, post, owner, _, s.nextSym + i, hsplit, hoid, rfl, rfl, rfl, hins, ?_, ?_, ?_⟩
    · intro j hj
      exact get?_set_other owner.operands k j _ fun hc => hj hc.symm
    · rw [cloneConstExprInto_eq hroot i]
      exact ⟨newGlobalsFor s.nextSym rootOp, rfl⟩
    · rw [cloneConstExprInto_eq hroot i]
      exact Or.inr ⟨newInitFor s rootId rootOp, rfl⟩

/-- C1: when a value escapes at two distinct consuming operands, the first
escape materializes exactly one initializer and a global recorded in the memo
table, and the second escape reuses that same global (no new global,
initializer or memo entry); each rewritten escape site reads the global
through its own load. -/
theorem hoist_memoization_single_global
    (s : ModuleState) (o1 k1 o2 k2 rootId i : Nat) (rootOp : Op)
    (hwf : WFState s)
    (hv1 : operandAt s.prog o1 k1 = some (Value.result rootId i))
    (hv2 : operandAt s.prog o2 k2 = some (Value.result rootId i))
    (hne : ¬(o2 = o1 ∧ k2 = k1))
    (hroot : findOp s.prog rootId = some rootOp)
    (hi : i < rootOp.resultTypes.length)
    (hm : alookup s.hoisted (Value.result rootId i) = none) :
    ∃ sym,
      alookup (hoistConstExpr s o1 k1).hoisted (Value.result rootId i) = some sym ∧
      (hoistConstExpr s o1 k1).inits.length = s.inits.length + 1 ∧
      sym ∈ declaredSyms (hoistConstExpr s o1 k1) ∧
      (hoistConstExpr (hoistConstExpr s o1 k1) o2 k2).globals =
        (hoistConstExpr s o1 k1).globals ∧
      (hoistConstExpr (hoistConstExpr s o1 k1) o2 k2).inits =
        (hoistConstExpr s o1 k1).inits ∧
      (hoistConstExpr (hoistConstExpr s o1 k1) o2 k2).hoisted =
        (hoistConstExpr s o1 k1).hoisted ∧
      ∃ l1 l2 lop1 lop2, l1 ≠ l2 ∧
        operandAt (hoistConstExpr (hoistConstExpr s o1 k1) o2 k2).prog o1 k1 =
          some (Value.result l1 0) ∧
        operandAt (hoistConstExpr (hoistConstExpr s o1 k1) o2 k2).prog o2 k2 =
          some (Value.result l2 0) ∧
        findOp (hoistConstExpr (hoistConstExpr s o1 k1) o2 k2).prog l1 = some lop1 ∧
        Op.kind lop1 = OpKind.globalLoad sym ∧
        findOp (hoistConstExpr (hoistConstExpr s o1 k1) o2 k2).prog l2 = some lop2 ∧
        Op.kind lop2 = OpKind.globalLoad sym := by
  obtain ⟨owner1, hfo1, hget1⟩ := operandAt_some hv1
  obtain ⟨owner2, hfo2, hget2⟩ := operandAt_some hv2
  have ho1lt : o1 < s.nextOpId := findOp_id hfo1 ▸ hwf.2 owner1 (findOp_mem hfo1)
  have ho2lt : o2 < s.nextOpId := findOp_id hfo2 ▸ hwf.2 owner2 (findOp_mem hfo2)
  -- the first call
  obtain ⟨sym, lop1, hlid1, hlk1, hlo1, hlf1, hop1, hnid1, hmap1⟩ :=
    hoistConstExpr_rewrites hwf hv1 hroot hi
  have hwf1 : WFState (hoistConstExpr s o1 k1) := hoistConstExpr_WF hwf o1 k1
  have hm2 := cloneConstExprInto_maps hroot hi
  have hs1eq := hoistConstExpr_eq_unmapped hv1 hm hm2
  have hcl := cloneConstExprInto_eq hroot i
  -- state after the first call, spelled out
  have hinits1 : (hoistConstExpr s o1 k1).inits = s.inits ++ [newInitFor s rootId rootOp] := by
    rw [hs1eq]
    simp only
    rw [hcl]
  have hglobals1 : (hoistConstExpr s o1 k1).globals =
      newGlobalsFor s.nextSym rootOp ++ s.globals := by
    rw [hs1eq]
    simp only
    rw [hcl]
  have hsym : sym = s.nextSym + i := by
    rw [hs1eq] at hmap1
    simp only at hmap1
    rw [hm2] at hmap1
    exact (Option.some.injEq .. ▸ hmap1).symm
  -- the second escape operand is untouched by the first call
  have hv2' : operandAt (hoistConstExpr s o1 k1).prog o2 k2 = some (Value.result rootId i) := by
    rw [hoistConstExpr_operandAt_frame hwf ho2lt hne]
    exact hv2
  -- the second call finds the memo entry
  obtain ⟨owner2', hfo2', hget2'⟩ := operandAt_some hv2'
  have hs2eq := hoistConstExpr_eq_mapped hv2' hmap1
  refine ⟨sym, hmap1, by rw [hinits1]; simp, ?_, by rw [hs2eq], by rw [hs2eq], by rw [hs2eq],
    s.nextOpId, (hoistConstExpr s o1 k1).nextOpId, lop1,
    ⟨(hoistConstExpr s o1 k1).nextOpId, OpKind.globalLoad sym,
     [((((hoistConstExpr s o1 k1).globals.find? fun g => g.sym == sym).map
        GlobalOp.ty).getD 0)], []⟩,
    by rw [hnid1]; omega, ?_, ?_, ?_, hlk1, ?_, rfl⟩
  · -- the global is declared after the first call
    subst hsym
    simp only [declaredSyms]
    rw [hglobals1]
    unfold newGlobalsFor
    simp only [List.map_append, List.mem_append]
    left
    rw [List.map_map]
    exact List.mem_map.mpr ⟨i, List.mem_range.mpr hi, rfl⟩
  · -- first load still feeds operand (o1, k1) after the second call
    rw [hs2eq]
    simp only [operandAt]
    have hno : (s.nextOpId : Nat) ≠ o2 ∨ True := Or.inr trivial
    by_cases ho12 : o1 = o2
    · -- same consumer, different operand position
      subst ho12
      have hk12 : k1 ≠ k2 := fun hc => hne ⟨rfl, hc.symm⟩
      have hlne : ((⟨(hoistConstExpr s o1 k1).nextOpId, OpKind.globalLoad sym,
          [((((hoistConstExpr s o1 k1).globals.find? fun g => g.sym == sym).map
            GlobalOp.ty).getD 0)], []⟩ : Op)).id ≠ o1 :=
        show (hoistConstExpr s o1 k1).nextOpId ≠ o1 by rw [hnid1]; omega
      rw [findOp_insert_owner hfo2' hlne]
      simp only
      rw [get?_set_other owner2'.operands k2 k1 _ fun hc => hk12 hc.symm]
      have hop1' : owner2'.operands.get? k1 = some (Value.result s.nextOpId 0) := by
        simp only [operandAt, hfo2'] at hop1
        exact hop1
      exact hop1'
    · have hfr := @findOp_insert_other (hoistConstExpr s o1 k1).prog o2 o1 k2
        ⟨(hoistConstExpr s o1 k1).nextOpId, OpKind.globalLoad sym,
         [((((hoistConstExpr s o1 k1).globals.find? fun g => g.sym == sym).map
            GlobalOp.ty).getD 0)], []⟩ ho12
        (show o1 ≠ (hoistConstExpr s o1 k1).nextOpId by rw [hnid1]; omega)
      simp only [operandAt] at hop1 ⊢
      rw [hfr]
      exact hop1
  · -- second operand now reads the second load
    rw [hs2eq]
    simp only [operandAt]
    have hlne : ((⟨(hoistConstExpr s o1 k1).nextOpId, OpKind.globalLoad sym,
        [((((hoistConstExpr s o1 k1).globals.find? fun g => g.sym == sym).map
          GlobalOp.ty).getD 0)], []⟩ : Op)).id ≠ o2 :=
      show (hoistConstExpr s o1 k1).nextOpId ≠ o2 by
        have := findOp_id hfo2' ▸ hwf1.2 owner2' (findOp_mem hfo2')
        omega
    rw [findOp_insert_owner hfo2' hlne]
    simp only
    exact get?_set_self owner2'.operands k2 _ (get?_some_lt hget2')
  · -- the first load op is still present after the second call
    rw [hs2eq]
    simp only
    have h1 : (s.nextOpId : Nat) ≠ o2 := by omega
    rw [findOp_insert_other h1
      (show (s.nextOpId : Nat) ≠ (hoistConstExpr s o1 k1).nextOpId by rw [hnid1]; omega)]
    exact hlf1
  · -- the second load op is present
    rw [hs2eq]
    simp only
    exact findOp_insert_self hfo2' fun op hop hc => by
      have hc' : op.id = (hoistConstExpr s o1 k1).nextOpId := hc
      have := hwf1.2 op hop
      omega

/-! Lemmas about the use snapshot. -/

theorem mem_opUses {op : Op} {v : Value} {c j : Nat} :
    (c, j) ∈ opUses op v ↔ c = op.id ∧ op.operands.get? j = some v := by
  constructor
  · intro h
    rcases List.mem_filterMap.mp h with ⟨k, _, hk⟩
    by_cases hc : op.operands.get? k = some v
    · rw [if_pos hc] at hk
      have h1 : (op.id, k) = (c, j) := by simpa using hk
      obtain ⟨h2, h3⟩ := Prod.mk.injEq .. ▸ h1
      exact ⟨h2.symm, h3 ▸ hc⟩
    · rw [if_neg hc] at hk
      exact absurd hk (by simp)
  · rintro ⟨rfl, hget⟩
    refine List.mem_filterMap.mpr ⟨j, List.mem_range.mpr (get?_some_lt hget), ?_⟩
    rw [if_pos hget]

theorem opUses_nodup (op : Op) (v : Value) : (opUses op v).Nodup := by
  refine List.Nodup.filterMap ?_ (List.nodup_range _)
  intro a a' b hb hb'
  by_cases hc : op.operands.get? a = some v
  · rw [if_pos hc] at hb
    by_cases hc' : op.operands.get? a' = some v
    · rw [if_pos hc'] at hb'
      simp only [Option.mem_def, Option.some.injEq] at hb hb'
      rw [← hb'] at hb
      exact (Prod.mk.injEq .. ▸ hb).2
    · rw [if_neg hc'] at hb'
      exact absurd hb' (by simp)
  · rw [if_neg hc] at hb
    exact absurd hb (by simp)

theorem mem_usesOf_fst {prog : List Op} {v : Value} {c j : Nat}
    (h : (c, j) ∈ usesOf prog v) : c ∈ prog.map Op.id := by
  rcases List.mem_flatMap.mp h with ⟨op, hop, hmem⟩
  exact (mem_opUses.mp hmem).1 ▸ List.mem_map_of_mem Op.id hop

theorem mem_usesOf {prog : List Op} {v : Value} {c j : Nat}
    (hnd : (prog.map Op.id).Nodup) :
    (c, j) ∈ usesOf prog v ↔ operandAt prog c j = some v := by
  constructor
  · intro h
    rcases List.mem_flatMap.mp h with ⟨op, hop, hmem⟩
    obtain ⟨rfl, hget⟩ := mem_opUses.mp hmem
    rw [operandAt, findOp_of_mem hop hnd]
    exact hget
  · intro h
    obtain ⟨op, hf, hget⟩ := operandAt_some h
    refine List.mem_flatMap.mpr ⟨op, findOp_mem hf, ?_⟩
    exact mem_opUses.mpr ⟨(findOp_id hf).symm, hget⟩

theorem usesOf_nodup {prog : List Op} (v : Value) (hnd : (prog.map Op.id).Nodup) :
    (usesOf prog v).Nodup := by
  induction prog with
  | nil => exact List.nodup_nil
  | cons op rest ih =>
    simp only [List.map_cons, List.nodup_cons] at hnd
    have hstep : usesOf (op :: rest) v = opUses op v ++ usesOf rest v := by
      simp [usesOf]
    rw [hstep]
    refine List.Nodup.append (opUses_nodup op v) (ih hnd.2) ?_
    intro u hu1 hu2
    cases u with
    | mk c j =>
      have h1 : c = op.id := (mem_opUses.mp hu1).1
      have h2 : c ∈ rest.map Op.id := mem_usesOf_fst hu2
      exact hnd.1 (h1 ▸ h2)

/-! Frame lemmas lifted to the per-use processing and the use-list folds. -/

theorem processOperandUse_cases (an : Analysis) (s : ModuleState) (u : Nat × Nat) :
    processOperandUse an s u = s ∨
    (skipConsumer an u.1 = false ∧ an.operandOK u.1 u.2 = true ∧
      processOperandUse an s u = hoistConstExpr s u.1 u.2) := by
  rw [processOperandUse]
  by_cases h1 : skipConsumer an u.1
  · rw [if_pos h1]; exact Or.inl rfl
  · rw [if_neg h1]
    by_cases h2 : an.operandOK u.1 u.2
    · rw [if_neg (by simp [h2])]
      exact Or.inr ⟨by simp [h1], h2, rfl⟩
    · rw [if_pos (by simp [h2])]
      exact Or.inl rfl

theorem processOperandUse_WF {s : ModuleState} (an : Analysis) (hwf : WFState s)
    (u : Nat × Nat) : WFState (processOperandUse an s u) := by
  rcases processOperandUse_cases an s u with h | ⟨_, _, h⟩
  · rw [h]; exact hwf
  · rw [h]; exact hoistConstExpr_WF hwf u.1 u.2

theorem processOperandUse_nextOpId_ge (an : Analysis) (s : ModuleState) (u : Nat × Nat) :
    s.nextOpId ≤ (processOperandUse an s u).nextOpId := by
  rcases processOperandUse_cases an s u with h | ⟨_, _, h⟩
  · rw [h]
  · rw [h]; exact hoistConstExpr_nextOpId_ge s u.1 u.2

theorem processOperandUse_operandAt_frame {s : ModuleState} {c j : Nat} (an : Analysis)
    (hwf : WFState s) (hc : c < s.nextOpId) {u : Nat × Nat}
    (hne : ¬(c = u.1 ∧ j = u.2)) :
    operandAt (processOperandUse an s u).prog c j = operandAt s.prog c j := by
  rcases processOperandUse_cases an s u with h | ⟨_, _, h⟩
  · rw [h]
  · rw [h]; exact hoistConstExpr_operandAt_frame hwf hc hne

theorem processOperandUse_findOp_frame {s : ModuleState} {c : Nat} (an : Analysis)
    (hwf : WFState s) (hc : c < s.nextOpId) {u : Nat × Nat} (hne : c ≠ u.1) :
    findOp (processOperandUse an s u).prog c = findOp s.prog c := by
  rcases processOperandUse_cases an s u with h | ⟨_, _, h⟩
  · rw [h]
  · rw [h]; exact hoistConstExpr_findOp_frame hwf hc hne

theorem foldUses_WF {an : Analysis} :
    ∀ (L : List (Nat × Nat)) (s : ModuleState), WFState s →
      WFState (L.foldl (processOperandUse an) s)
  | [], s, hwf => hwf
  | u :: rest, s, hwf =>
    foldUses_WF rest (processOperandUse an s u) (processOperandUse_WF an hwf u)

theorem foldUses_nextOpId_ge {an : Analysis} :
    ∀ (L : List (Nat × Nat)) (s : ModuleState),
      s.nextOpId ≤ (L.foldl (processOperandUse an) s).nextOpId
  | [], s => Nat.le_refl _
  | u :: rest, s =>
    Nat.le_trans (processOperandUse_nextOpId_ge an s u)
      (foldUses_nextOpId_ge rest (processOperandUse an s u))

theorem foldUses_operandAt_frame {an : Analysis} {c j : Nat} :
    ∀ (L : List (Nat × Nat)) (s : ModuleState), WFState s → c < s.nextOpId →
      (∀ u ∈ L, ¬(c = u.1 ∧ j = u.2)) →
      operandAt (L.foldl (processOperandUse an) s).prog c j = operandAt s.prog c j
  | [], s, _, _, _ => rfl
  | u :: rest, s, hwf, hc, hL => by
    rw [List.foldl_cons,
      foldUses_operandAt_frame rest (processOperandUse an s u)
        (processOperandUse_WF an hwf u)
        (Nat.lt_of_lt_of_le hc (processOperandUse_nextOpId_ge an s u))
        (fun u' hu' => hL u' (List.mem_cons_of_mem u hu'))]
    exact processOperandUse_operandAt_frame an hwf hc (hL u (List.mem_cons_self u rest))

theorem foldUses_findOp_frame {an : Analysis} {c : Nat} :
    ∀ (L : List (Nat × Nat)) (s : ModuleState), WFState s → c < s.nextOpId →
      (∀ u ∈ L, c ≠ u.1) →
      findOp (L.foldl (processOperandUse an) s).prog c = findOp s.prog c
  | [], s, _, _, _ => rfl
  | u :: rest, s, hwf, hc, hL => by
    rw [List.foldl_cons,
      foldUses_findOp_frame rest (processOperandUse an s u)
        (processOperandUse_WF an hwf u)
        (Nat.lt_of_lt_of_le hc (processOperandUse_nextOpId_ge an s u))
        (fun u' hu' => hL u' (List.mem_cons_of_mem u hu'))]
    exact processOperandUse_findOp_frame an hwf hc (hL u (List.mem_cons_self u rest))

theorem hoistConstExpr_findOp_types {s : ModuleState} {d o k : Nat} {dop : Op}
    (hwf : WFState s) (hd : findOp s.prog d = some dop) :
    ∃ dop', findOp (hoistConstExpr s o k).prog d = some dop' ∧ dop'.id = dop.id ∧
      dop'.kind = dop.kind ∧ dop'.resultTypes = dop.resultTypes := by
  have hdlt : d < s.nextOpId := findOp_id hd ▸ hwf.2 dop (findOp_mem hd)
  by_cases hdo : d = o
  · subst hdo
    rcases hoistConstExpr_shape s d k with h | ⟨v, _, h⟩ | ⟨v, s1, sym, lop, hv, hs1, _, hid, _, _, h⟩
    · rw [h]; exact ⟨dop, hd, rfl, rfl, rfl⟩
    · rw [h, cloneConstExprInto_prog]; exact ⟨dop, hd, rfl, rfl, rfl⟩
    · rw [h]
      simp only
      have hlne : lop.id ≠ d := by omega
      exact ⟨_, findOp_insert_owner hd hlne, rfl, rfl, rfl⟩
  · rw [hoistConstExpr_findOp_frame hwf hdlt hdo]
    exact ⟨dop, hd, rfl, rfl, rfl⟩

theorem processOperandUse_findOp_types {s : ModuleState} {d : Nat} {dop : Op}
    (an : Analysis) (hwf : WFState s) (hd : findOp s.prog d = some dop) (u : Nat × Nat) :
    ∃ dop', findOp (processOperandUse an s u).prog d = some dop' ∧ dop'.id = dop.id ∧
      dop'.kind = dop.kind ∧ dop'.resultTypes = dop.resultTypes := by
  rcases processOperandUse_cases an s u with h | ⟨_, _, h⟩
  · rw [h]; exact ⟨dop, hd, rfl, rfl, rfl⟩
  · rw [h]; exact hoistConstExpr_findOp_types hwf hd

theorem foldUses_findOp_types {an : Analysis} {d : Nat} :
    ∀ (L : List (Nat × Nat)) (s : ModuleState) (dop : Op), WFState s →
      findOp s.prog d = some dop →
      ∃ dop', findOp (L.foldl (processOperandUse an) s).prog d = some dop' ∧
        dop'.id = dop.id ∧ dop'.kind = dop.kind ∧ dop'.resultTypes = dop.resultTypes
  | [], s, dop, _, hd => ⟨dop, hd, rfl, rfl, rfl⟩
  | u :: rest, s, dop, hwf, hd => by
    obtain ⟨dop1, hd1, h1, h2, h3⟩ := processOperandUse_findOp_types an hwf hd u
    obtain ⟨dop2, hd2, g1, g2, g3⟩ := foldUses_findOp_types rest
      (processOperandUse an s u) dop1 (processOperandUse_WF an hwf u) hd1
    exact ⟨dop2, hd2, g1.trans h1, g2.trans h2, g3.trans h3⟩

theorem foldUses_operandAt_skip {an : Analysis} {c j : Nat}
    (hsk : skipConsumer an c = true ∨ an.operandOK c j = false) :
    ∀ (L : List (Nat × Nat)) (s : ModuleState), WFState s → c < s.nextOpId →
      operandAt (L.foldl (processOperandUse an) s).prog c j = operandAt s.prog c j
  | [], s, _, _ => rfl
  | u :: rest, s, hwf, hc => by
    have hstep : operandAt (processOperandUse an s u).prog c j = operandAt s.prog c j := by
      by_cases hu : c = u.1 ∧ j = u.2
      · rcases processOperandUse_cases an s u with h | ⟨h1, h2, _⟩
        · rw [h]
        · rcases hsk with hs' | hs'
          · rw [hu.1] at hs'
            rw [hs'] at h1
            exact absurd h1 (by simp)
          · rw [hu.1, hu.2] at hs'
            rw [hs'] at h2
            exact absurd h2 (by simp)
      · exact processOperandUse_operandAt_frame an hwf hc hu
    rw [List.foldl_cons,
      foldUses_operandAt_skip hsk rest (processOperandUse an s u)
        (processOperandUse_WF an hwf u)
        (Nat.lt_of_lt_of_le hc (processOperandUse_nextOpId_ge an s u)),
      hstep]

/-! Lemmas about `processResult`. -/

theorem processResult_WF {s : ModuleState} (an : Analysis) (hwf : WFState s) (v : Value) :
    WFState (processResult an s v) := foldUses_WF _ s hwf

theorem processResult_nextOpId_ge (an : Analysis) (s : ModuleState) (v : Value) :
    s.nextOpId ≤ (processResult an s v).nextOpId := foldUses_nextOpId_ge _ s

theorem processResult_operandAt_skip {an : Analysis} {s : ModuleState} {c j : Nat}
    (hwf : WFState s) (hc : c < s.nextOpId)
    (hsk : skipConsumer an c = true ∨ an.operandOK c j = false) (v : Value) :
    operandAt (processResult an s v).prog c j = operandAt s.prog c j :=
  foldUses_operandAt_skip hsk _ s hwf hc

theorem processResult_operandAt_frame {an : Analysis} {s : ModuleState} {c j : Nat}
    {w u : Value} (hwf : WFState s) (hv : operandAt s.prog c j = some w) (hw : w ≠ u) :
    operandAt (processResult an s u).prog c j = some w := by
  have hc : c < s.nextOpId := by
    obtain ⟨op, hf, _⟩ := operandAt_some hv
    exact findOp_id hf ▸ hwf.2 op (findOp_mem hf)
  rw [processResult, foldUses_operandAt_frame _ s hwf hc ?_]
  · exact hv
  · intro u' hu' hcj
    have : (c, j) ∈ usesOf s.prog u := by
      have : u' = (c, j) := by
        cases u' with
        | mk a b =>
          rw [Prod.mk.injEq]
          exact ⟨hcj.1.symm, hcj.2.symm⟩
      exact this ▸ hu'
    rw [mem_usesOf hwf.1] at this
    rw [hv] at this
    exact hw (by simpa using this)

theorem processResult_findOp_noOps {an : Analysis} {s : ModuleState} {d : Nat} {dop : Op}
    (hwf : WFState s) (hd : findOp s.prog d = some dop) (hops : dop.operands = [])
    (u : Value) : findOp (processResult an s u).prog d = some dop := by
  have hdlt : d < s.nextOpId := findOp_id hd ▸ hwf.2 dop (findOp_mem hd)
  rw [processResult, foldUses_findOp_frame _ s hwf hdlt ?_]
  · exact hd
  · intro u' hu' hdu
    cases u' with
    | mk a b =>
      subst hdu
      rw [mem_usesOf hwf.1] at hu'
      simp only [operandAt, hd, hops] at hu'
      simp at hu'

theorem processResult_rewrites {an : Analysis} {s : ModuleState} {c j rootId i : Nat}
    {rootOp : Op} (hwf : WFState s)
    (hv : operandAt s.prog c j = some (Value.result rootId i))
    (hroot : findOp s.prog rootId = some rootOp)
    (hi : i < rootOp.resultTypes.length)
    (hskip : skipConsumer an c = false) (hok : an.operandOK c j = true) :
    ∃ l lop sym, s.nextOpId ≤ l ∧
      operandAt (processResult an s (Value.result rootId i)).prog c j =
        some (Value.result l 0) ∧
      findOp (processResult an s (Value.result rootId i)).prog l = some lop ∧
      Op.id lop = l ∧ Op.kind lop = OpKind.globalLoad sym ∧ Op.operands lop = [] ∧
      l < (processResult an s (Value.result rootId i)).nextOpId := by
  have hc_lt : c < s.nextOpId := by
    obtain ⟨op, hf, _⟩ := operandAt_some hv
    exact findOp_id hf ▸ hwf.2 op (findOp_mem hf)
  have hrlt : rootId < s.nextOpId := findOp_id hroot ▸ hwf.2 rootOp (findOp_mem hroot)
  have hmemL : (c, j) ∈ usesOf s.prog (Value.result rootId i) :=
    (mem_usesOf hwf.1).mpr hv
  obtain ⟨L1, L2, hLeq⟩ := List.append_of_mem hmemL
  have hnodupL := usesOf_nodup (Value.result rootId i) hwf.1
  rw [hLeq, List.nodup_append] at hnodupL
  obtain ⟨hnd1, hnd2, hdisj⟩ := hnodupL
  have hnotin1 : (c, j) ∉ L1 := fun hc' => hdisj hc' (List.mem_cons_self _ _)
  have hnotin2 : (c, j) ∉ L2 := (List.nodup_cons.mp hnd2).1
  have hbound : ∀ u ∈ usesOf s.prog (Value.result rootId i), u.1 < s.nextOpId := by
    intro u hu
    cases u with
    | mk a b =>
      rcases List.mem_map.mp (mem_usesOf_fst hu) with ⟨op, hop, hid⟩
      exact hid ▸ hwf.2 op hop
  rw [processResult, hLeq, List.foldl_append, List.foldl_cons]
  have hwf1 : WFState (L1.foldl (processOperandUse an) s) := foldUses_WF L1 s hwf
  have hge1 : s.nextOpId ≤ (L1.foldl (processOperandUse an) s).nextOpId :=
    foldUses_nextOpId_ge L1 s
  have hv1 : operandAt (L1.foldl (processOperandUse an) s).prog c j =
      some (Value.result rootId i) := by
    rw [foldUses_operandAt_frame L1 s hwf hc_lt ?_]
    · exact hv
    · intro u hu hcj
      refine hnotin1 ?_
      have : u = (c, j) := by
        cases u with
        | mk a b =>
          rw [Prod.mk.injEq]
          exact ⟨hcj.1.symm, hcj.2.symm⟩
      exact this ▸ hu
  obtain ⟨rootOp1, hroot1, hrid, hrkind, hrt⟩ :=
    foldUses_findOp_types L1 s rootOp hwf hroot
  have hstep : processOperandUse an (L1.foldl (processOperandUse an) s) (c, j) =
      hoistConstExpr (L1.foldl (processOperandUse an) s) c j := by
    rw [processOperandUse]
    rw [if_neg (by simp [hskip]), if_neg (by simp [hok])]
  rw [hstep]
  obtain ⟨sym, lop, hlid, hlkind, hlops, hlf, hop, hnid, hmap⟩ :=
    hoistConstExpr_rewrites hwf1 hv1 hroot1 (by rw [hrt]; exact hi)
  have hwf2 : WFState (hoistConstExpr (L1.foldl (processOperandUse an) s) c j) :=
    hoistConstExpr_WF hwf1 c j
  refine ⟨(L1.foldl (processOperandUse an) s).nextOpId, lop, sym, hge1, ?_, ?_, hlid,
    hlkind, hlops, ?_⟩
  · rw [foldUses_operandAt_frame L2 _ hwf2 (by omega) ?_]
    · exact hop
    · intro u hu hcj
      refine hnotin2 ?_
      have : u = (c, j) := by
        cases u with
        | mk a b =>
          rw [Prod.mk.injEq]
          exact ⟨hcj.1.symm, hcj.2.symm⟩
      exact this ▸ hu
  · rw [foldUses_findOp_frame L2 _ hwf2 (by omega) ?_]
    · exact hlf
    · intro u hu hcu
      have := hbound u (hLeq ▸ List.mem_append_right L1 (List.mem_cons_of_mem _ hu))
      omega
  · calc (L1.foldl (processOperandUse an) s).nextOpId
        < (hoistConstExpr (L1.foldl (processOperandUse an) s) c j).nextOpId := by omega
      _ ≤ _ := foldUses_nextOpId_ge L2 _

theorem processResult_findOp_types {an : Analysis} {s : ModuleState} {d : Nat} {dop : Op}
    (hwf : WFState s) (hd : findOp s.prog d = some dop) (u : Value) :
    ∃ dop', findOp (processResult an s u).prog d = some dop' ∧ dop'.id = dop.id ∧
      dop'.kind = dop.kind ∧ dop'.resultTypes = dop.resultTypes :=
  foldUses_findOp_types _ s dop hwf hd

/-! Folds of `processResult` over the result indices of the processed op. -/

theorem foldResults_preserve {an : Analysis} {c j aId i : Nat} :
    ∀ (idxs : List Nat) (s : ModuleState) (A : Op), WFState s →
      operandAt s.prog c j = some (Value.result aId i) →
      findOp s.prog aId = some A →
      (∀ t ∈ idxs, t ≠ i) →
      WFState (idxs.foldl (fun s' t => processResult an s' (Value.result aId t)) s) ∧
      operandAt
        (idxs.foldl (fun s' t => processResult an s' (Value.result aId t)) s).prog c j =
        some (Value.result aId i) ∧
      s.nextOpId ≤
        (idxs.foldl (fun s' t => processResult an s' (Value.result aId t)) s).nextOpId ∧
      ∃ A', findOp
          (idxs.foldl (fun s' t => processResult an s' (Value.result aId t)) s).prog aId =
          some A' ∧ A'.resultTypes = A.resultTypes
  | [], s, A, hwf, hv, hA, _ => ⟨hwf, hv, Nat.le_refl _, A, hA, rfl⟩
  | t :: rest, s, A, hwf, hv, hA, hne => by
    rw [List.foldl_cons]
    have hti : Value.result aId i ≠ Value.result aId t := by
      intro hc
      exact hne t (List.mem_cons_self t rest) (by cases hc; rfl)
    have hv1 : operandAt (processResult an s (Value.result aId t)).prog c j =
        some (Value.result aId i) :=
      processResult_operandAt_frame hwf hv hti
    obtain ⟨A1, hA1, _, _, hrt1⟩ := processResult_findOp_types hwf hA (Value.result aId t)
    obtain ⟨hwf', hv', hge', A', hA', hrt'⟩ :=
      foldResults_preserve rest (processResult an s (Value.result aId t)) A1
        (processResult_WF an hwf _) hv1 hA1
        (fun t' ht' => hne t' (List.mem_cons_of_mem t ht'))
    exact ⟨hwf', hv', Nat.le_trans (processResult_nextOpId_ge an s _) hge',
      A', hA', hrt'.trans hrt1⟩

theorem foldResults_preserve_load {an : Analysis} {c j aId l : Nat} {lop : Op} :
    ∀ (idxs : List Nat) (s : ModuleState), WFState s →
      operandAt s.prog c j = some (Value.result l 0) →
      findOp s.prog l = some lop → Op.operands lop = [] → aId < l →
      operandAt
        (idxs.foldl (fun s' t => processResult an s' (Value.result aId t)) s).prog c j =
        some (Value.result l 0) ∧
      findOp
        (idxs.foldl (fun s' t => processResult an s' (Value.result aId t)) s).prog l =
        some lop
  | [], s, _, hv, hl, _, _ => ⟨hv, hl⟩
  | t :: rest, s, hwf, hv, hl, hops, hal => by
    rw [List.foldl_cons]
    have hlv : Value.result l 0 ≠ Value.result aId t := by
      intro hc
      cases hc
      omega
    exact foldResults_preserve_load rest (processResult an s (Value.result aId t))
      (processResult_WF an hwf _)
      (processResult_operandAt_frame hwf hv hlv)
      (processResult_findOp_noOps hwf hl hops _) hops hal

theorem foldResults_operandAt_skip {an : Analysis} {c j : Nat}
    (hsk : skipConsumer an c = true ∨ an.operandOK c j = false) {aId : Nat} :
    ∀ (idxs : List Nat) (s : ModuleState), WFState s → c < s.nextOpId →
      operandAt
        (idxs.foldl (fun s' t => processResult an s' (Value.result aId t)) s).prog c j =
        operandAt s.prog c j
  | [], s, _, _ => rfl
  | t :: rest, s, hwf, hc => by
    rw [List.foldl_cons,
      foldResults_operandAt_skip hsk rest (processResult an s (Value.result aId t))
        (processResult_WF an hwf _)
        (Nat.lt_of_lt_of_le hc (processResult_nextOpId_ge an s _))]
    exact processResult_operandAt_skip hwf hc hsk _

theorem processOp_eq_fold {an : Analysis} {s : ModuleState} {aId : Nat} {A : Op}
    (hleaf : hoistableLeaf an aId = true) (hA : findOp s.prog aId = some A) :
    processOp an s aId =
      (List.range A.resultTypes.length).foldl
        (fun s' t => processResult an s' (Value.result aId t)) s := by
  rw [processOp, if_pos hleaf, hA]

/-- C2: during the walk, an operand use of result `i` of operation `A` is
rewritten to a global load if and only if `A` is marked const-expr and
non-root and accepted as a hoistable leaf, the consumer is not itself a
const-expr accepted leaf, and the policy accepts the consuming operand:
(a) if `A` is not an accepted non-root const-expr leaf the walk step is a
no-op; (b) if the consumer is skipped or the operand is rejected, the
operand is left unchanged; (c) otherwise the operand is rewritten to the
result of a freshly inserted load of a global. -/
theorem escape_rewrite_characterization
    (an : Analysis) (s : ModuleState) (aId i c j : Nat) (A : Op)
    (hwf : WFState s)
    (hA : findOp s.prog aId = some A)
    (hi : i < A.resultTypes.length)
    (hv : operandAt s.prog c j = some (Value.result aId i)) :
    (hoistableLeaf an aId = false → processOp an s aId = s) ∧
    ((skipConsumer an c = true ∨ an.operandOK c j = false) →
      operandAt (processOp an s aId).prog c j = some (Value.result aId i)) ∧
    (hoistableLeaf an aId = true → skipConsumer an c = false → an.operandOK c j = true →
      ∃ l lop sym, s.nextOpId ≤ l ∧
        operandAt (processOp an s aId).prog c j = some (Value.result l 0) ∧
        findOp (processOp an s aId).prog l = some lop ∧
        Op.id lop = l ∧ Op.kind lop = OpKind.globalLoad sym ∧ Op.operands lop = []) := by
  have hc_lt : c < s.nextOpId := by
    obtain ⟨op, hf, _⟩ := operandAt_some hv
    exact findOp_id hf ▸ hwf.2 op (findOp_mem hf)
  have halt : aId < s.nextOpId := findOp_id hA ▸ hwf.2 A (findOp_mem hA)
  refine ⟨?_, ?_, ?_⟩
  · intro h
    rw [processOp, if_neg (by simp [h])]
  · intro hsk
    by_cases hleaf : hoistableLeaf an aId
    · rw [processOp_eq_fold hleaf hA]
      rw [foldResults_operandAt_skip hsk _ s hwf hc_lt]
      exact hv
    · rw [processOp, if_neg hleaf]
      exact hv
  · intro hleaf hskip hok
    rw [processOp_eq_fold hleaf hA]
    have hmem : i ∈ List.range A.resultTypes.length := List.mem_range.mpr hi
    obtain ⟨pre, post, hsplit⟩ := List.append_of_mem hmem
    have hnd := List.nodup_range A.resultTypes.length
    rw [hsplit, List.nodup_append] at hnd
    obtain ⟨hnd1, hnd2, hdisj⟩ := hnd
    have hpre : ∀ t ∈ pre, t ≠ i := fun t ht hc' =>
      hdisj ht (hc' ▸ List.mem_cons_self i post)
    rw [hsplit, List.foldl_append, List.foldl_cons]
    obtain ⟨hwf1, hv1, hge1, A', hA', hrt'⟩ :=
      foldResults_preserve pre s A hwf hv hA hpre
    obtain ⟨l, lop, sym, hge_l, hop2, hlf2, hlid, hlkind, hlops, hllt⟩ :=
      processResult_rewrites hwf1 hv1 hA' (by rw [hrt']; exact hi) hskip hok
    have hal : aId < l := by omega
    obtain ⟨hop3, hlf3⟩ := foldResults_preserve_load post
      (processResult an (pre.foldl (fun s' t => processResult an s' (Value.result aId t)) s)
        (Value.result aId i))
      (processResult_WF an hwf1 _) hop2 hlf2 hlops hal
    exact ⟨l, lop, sym, by omega, hop3, hlf3, hlid, hlkind, hlops⟩

/-! The all-or-none memoization invariant (C7 machinery). -/

theorem alookup_append_left_none {α β : Type} [DecidableEq α] {l1 : List (α × β)}
    (l2 : List (α × β)) {a : α} (h : alookup l1 a = none) :
    alookup (l1 ++ l2) a = alookup l2 a := by
  induction l1 with
  | nil => rfl
  | cons p rest ih =>
    cases p with
    | mk key b =>
      by_cases hk : a = key
      · rw [alookup, if_pos hk] at h
        exact absurd h (by simp)
      · rw [alookup, if_neg hk] at h
        rw [List.cons_append, alookup, if_neg hk]
        exact ih h

theorem alookup_append_left_some {α β : Type} [DecidableEq α] {l1 : List (α × β)}
    (l2 : List (α × β)) {a : α} {b : β} (h : alookup l1 a = some b) :
    alookup (l1 ++ l2) a = some b := by
  induction l1 with
  | nil => exact absurd h (by simp [alookup])
  | cons p rest ih =>
    cases p with
    | mk key b' =>
      by_cases hk : a = key
      · rw [alookup, if_pos hk] at h
        rw [List.cons_append, alookup, if_pos hk]
        exact h
      · rw [alookup, if_neg hk] at h
        rw [List.cons_append, alookup, if_neg hk]
        exact ih h

theorem alookup_eq_none_of_keys {α β : Type} [DecidableEq α] {l : List (α × β)} {a : α}
    (h : ∀ p ∈ l, p.1 ≠ a) : alookup l a = none := by
  induction l with
  | nil => rfl
  | cons p rest ih =>
    cases p with
    | mk key b =>
      rw [alookup, if_neg fun hc => h (key, b) (List.mem_cons_self _ _) hc.symm]
      exact ih fun p hp => h p (List.mem_cons_of_mem _ hp)

theorem mem_insertLoadBefore_of_mem {prog : List Op} {o k : Nat} {lop op : Op}
    (h : op ∈ prog) :
    ∃ op' ∈ insertLoadBefore prog o k lop, op'.id = op.id ∧ op'.kind = op.kind ∧
      op'.resultTypes = op.resultTypes := by
  induction prog with
  | nil => simp at h
  | cons hd rest ih =>
    by_cases hh : hd.id = o
    · rw [insertLoadBefore, if_pos hh]
      rcases List.mem_cons.mp h with rfl | hrest
      · exact ⟨{ op with operands := op.operands.set k (Value.result lop.id 0) },
          List.mem_cons_of_mem _ (List.mem_cons_self _ _), rfl, rfl, rfl⟩
      · exact ⟨op, List.mem_cons_of_mem _ (List.mem_cons_of_mem _ hrest), rfl, rfl, rfl⟩
    · rw [insertLoadBefore, if_neg hh]
      rcases List.mem_cons.mp h with rfl | hrest
      · exact ⟨op, List.mem_cons_self _ _, rfl, rfl, rfl⟩
      · obtain ⟨op', hmem, he⟩ := ih hrest
        exact ⟨op', List.mem_cons_of_mem _ hmem, he⟩

theorem cloneConstExprInto_MemoInv {s : ModuleState} (hwf : WFState s)
    (hkeys : MemoKeys s) (hinv : AllOrNone s) (v : Value) :
    MemoKeys (cloneConstExprInto s v) ∧ AllOrNone (cloneConstExprInto s v) := by
  cases v with
  | blockArg n => exact ⟨hkeys, hinv⟩
  | result rootId i =>
    cases hroot : findOp s.prog rootId with
    | none =>
      rw [cloneConstExprInto, hroot]
      exact ⟨hkeys, hinv⟩
    | some rootOp =>
      rw [cloneConstExprInto_eq hroot i]
      constructor
      · intro p hp
        simp only at hp ⊢
        rcases List.mem_append.mp hp with h1 | h2
        · rcases List.mem_map.mp h1 with ⟨i', hi', heq⟩
          exact ⟨rootOp, findOp_mem hroot, i', List.mem_range.mp hi',
            by rw [← heq, findOp_id hroot]⟩
        · exact hkeys p h2
      · intro op hop
        simp only at hop ⊢
        by_cases hr : op.id = rootId
        · left
          intro i' hi'
          have hopeq : op = rootOp := by
            have h1 := findOp_of_mem hop hwf.1
            rw [hr, hroot] at h1
            exact (Option.some.inj h1).symm
          rw [hr, alookup_append_left_some _
            (alookup_newHoistedFor (show i' < rootOp.resultTypes.length from hopeq ▸ hi'))]
          rfl
        · rcases hinv op hop with hall | hnone
          · left
            intro i' hi'
            rw [alookup_append_left_none _
              (alookup_newHoistedFor_ne fun t ht hc => hr (by cases hc; rfl))]
            exact hall i' hi'
          · right
            intro i'
            rw [alookup_append_left_none _
              (alookup_newHoistedFor_ne fun t ht hc => hr (by cases hc; rfl))]
            exact hnone i'

theorem hoistConstExpr_MemoInv {s : ModuleState} (hwf : WFState s)
    (hkeys : MemoKeys s) (hinv : AllOrNone s) (o k : Nat) :
    MemoKeys (hoistConstExpr s o k) ∧ AllOrNone (hoistConstExpr s o k) := by
  rcases hoistConstExpr_shape s o k with h | ⟨v, _, h⟩ | ⟨v, s1, sym, lop, hv, hs1, hmsym, hid, _, _, h⟩
  · rw [h]; exact ⟨hkeys, hinv⟩
  · rw [h]; exact cloneConstExprInto_MemoInv hwf hkeys hinv v
  · -- s1 is the state before the load insertion
    have hs1facts : MemoKeys s1 ∧ AllOrNone s1 ∧ s1.prog = s.prog ∧
        s1.nextOpId = s.nextOpId ∧ WFState s1 := by
      rcases hs1 with rfl | ⟨hm, rfl⟩
      · exact ⟨hkeys, hinv, rfl, rfl, hwf⟩
      · obtain ⟨h1, h2⟩ := cloneConstExprInto_MemoInv hwf hkeys hinv v
        refine ⟨h1, h2, cloneConstExprInto_prog s v, cloneConstExprInto_nextOpId s v, ?_⟩
        exact ⟨cloneConstExprInto_prog s v ▸ hwf.1, fun op hop => by
          rw [cloneConstExprInto_nextOpId]
          exact hwf.2 op (cloneConstExprInto_prog s v ▸ hop)⟩
    obtain ⟨hk1, hi1, hp1, hn1, hwf1⟩ := hs1facts
    rw [h]
    constructor
    · intro p hp
      simp only at hp ⊢
      obtain ⟨op, hop, hi', hlen, heq⟩ := hk1 p hp
      obtain ⟨op', hop', he1, _, he3⟩ :=
        @mem_insertLoadBefore_of_mem s.prog o k lop _ (hp1 ▸ hop)
      exact ⟨op', hop', hi', he3 ▸ hlen, he1 ▸ heq⟩
    · intro op hop
      simp only at hop ⊢
      rcases mem_insertLoadBefore hop with heq | ⟨op', hop', he1, _, he3⟩
      · right
        intro i'
        refine alookup_eq_none_of_keys ?_
        intro p hp hc
        obtain ⟨op1, hop1, i1, hlen1, heq1⟩ := hk1 p hp
        have hb : op1.id < s.nextOpId := hn1 ▸ hwf1.2 op1 hop1
        rw [heq1] at hc
        injection hc with hA hB
        rw [heq, hid] at hA
        omega
      · have hmem : op' ∈ s1.prog := hp1 ▸ hop'
        rcases hi1 op' hmem with hall | hnone
        · left
          intro i' hi'
          rw [he1]
          exact hall i' (he3 ▸ hi')
        · right
          intro i'
          rw [he1]
          exact hnone i'

/-! Reachability of the walk states through `HoistStep`. -/

theorem reaches_processOperandUse (an : Analysis) (s : ModuleState) (u : Nat × Nat) :
    Relation.ReflTransGen HoistStep s (processOperandUse an s u) := by
  rcases processOperandUse_cases an s u with h | ⟨_, _, h⟩
  · rw [h]
  · rw [h]
    exact Relation.ReflTransGen.single (HoistStep.mk u.1 u.2 s)

theorem reaches_foldl {α : Type} {f : ModuleState → α → ModuleState}
    (hf : ∀ s a, Relation.ReflTransGen HoistStep s (f s a)) :
    ∀ (L : List α) (s : ModuleState), Relation.ReflTransGen HoistStep s (L.foldl f s)
  | [], s => Relation.ReflTransGen.refl
  | a :: rest, s =>
    Relation.ReflTransGen.trans (hf s a) (reaches_foldl hf rest (f s a))

theorem reaches_processResult (an : Analysis) (s : ModuleState) (v : Value) :
    Relation.ReflTransGen HoistStep s (processResult an s v) :=
  reaches_foldl (reaches_processOperandUse an) _ s

theorem reaches_processOp (an : Analysis) (s : ModuleState) (opId : Nat) :
    Relation.ReflTransGen HoistStep s (processOp an s opId) := by
  rw [processOp]
  by_cases hleaf : hoistableLeaf an opId
  · rw [if_pos hleaf]
    cases hf : findOp s.prog opId with
    | none => exact Relation.ReflTransGen.refl
    | some op =>
      exact reaches_foldl (fun s' t => reaches_processResult an s' (Value.result opId t)) _ s
  · rw [if_neg hleaf]

theorem reaches_walkAll (an : Analysis) (s : ModuleState) (ids : List Nat) :
    Relation.ReflTransGen HoistStep s (walkAll an s ids) :=
  reaches_foldl (reaches_processOp an) ids s

theorem le_maxOpId {prog : List Op} {op : Op} (h : op ∈ prog) : op.id ≤ maxOpId prog := by
  induction prog with
  | nil => simp at h
  | cons hd rest ih =>
    rcases List.mem_cons.mp h with rfl | hrest
    · exact Nat.le_max_left _ _ |>.trans (Nat.le_refl _)
    · exact Nat.le_trans (ih hrest) (Nat.le_max_right _ _)

theorem initState_WF {prog : List Op} (hnd : (prog.map Op.id).Nodup) :
    WFState (initState prog) :=
  ⟨hnd, fun op hop => Nat.lt_succ_of_le (le_maxOpId hop)⟩

theorem reaches_invariants {s0 s : ModuleState}
    (h : Relation.ReflTransGen HoistStep s0 s)
    (hwf0 : WFState s0) (hk0 : MemoKeys s0) (ha0 : AllOrNone s0) :
    WFState s ∧ MemoKeys s ∧ AllOrNone s := by
  induction h with
  | refl => exact ⟨hwf0, hk0, ha0⟩
  | tail _ hstep ih =>
    obtain ⟨hwf, hk, ha⟩ := ih
    cases hstep with
    | mk o k s' =>
      obtain ⟨hk', ha'⟩ := hoistConstExpr_MemoInv hwf hk ha o k
      exact ⟨hoistConstExpr_WF hwf o k, hk', ha'⟩

/-- C7: the memo table satisfies the all-or-none invariant on multi-result
operations at every point during the pass: in every state reached from the
initial state by hoisting steps (and the states of the actual walk are so
reached), every operation of the program body has either all or none of its
results memoized. -/
theorem memo_table_all_or_none
    (an : Analysis) (p : List Op) (s : ModuleState)
    (hnd : (p.map Op.id).Nodup)
    (hreach : Relation.ReflTransGen HoistStep (initState p) s) :
    AllOrNone s ∧
    Relation.ReflTransGen HoistStep (initState p) (walkAll an (initState p) (p.map Op.id)) := by
  refine ⟨?_, reaches_walkAll an (initState p) (p.map Op.id)⟩
  have hk0 : MemoKeys (initState p) := fun p' hp' => by simp [initState] at hp'
  have ha0 : AllOrNone (initState p) := fun op hop => Or.inr fun i => rfl
  exact (reaches_invariants hreach (initState_WF hnd) hk0 ha0).2.2

/-! Characterization of the initializer bodies built by the slice cloner. -/

theorem alookup_mem {α β : Type} [DecidableEq α] {l : List (α × β)} {a : α} {b : β}
    (h : alookup l a = some b) : (a, b) ∈ l := by
  induction l with
  | nil => exact absurd h (by simp [alookup])
  | cons p rest ih =>
    cases p with
    | mk key b' =>
      by_cases hk : a = key
      · rw [alookup, if_pos hk] at h
        subst hk
        rw [Option.some.injEq] at h
        subst h
        exact List.mem_cons_self _ _
      · rw [alookup, if_neg hk] at h
        exact List.mem_cons_of_mem _ (ih h)

theorem getBackwardSlice_subset {prog : List Op} {rootOp op : Op}
    (h : op ∈ getBackwardSlice prog rootOp) : op ∈ prog := by
  rw [getBackwardSlice] at h
  exact (List.takeWhile_sublist _).mem ((List.filter_sublist _).mem h)

theorem mem_progLoadSyms {prog : List Op} {sym : Nat} :
    sym ∈ progLoadSyms prog ↔ ∃ op ∈ prog, op.kind = OpKind.globalLoad sym := by
  rw [progLoadSyms]
  constructor
  · intro h
    rcases List.mem_filterMap.mp h with ⟨op, hop, hk⟩
    cases hkind : op.kind with
    | original => rw [hkind] at hk; exact absurd hk (by simp)
    | globalLoad sym' =>
      rw [hkind] at hk
      simp only [Option.some.injEq] at hk
      exact ⟨op, hop, by rw [hkind, hk]⟩
  · rintro ⟨op, hop, hk⟩
    exact List.mem_filterMap.mpr ⟨op, hop, by rw [hk]⟩

theorem initLoadSyms_append (a b : List InitItem) :
    initLoadSyms ⟨a ++ b⟩ = initLoadSyms ⟨a⟩ ++ initLoadSyms ⟨b⟩ :=
  List.filterMap_append a b _

theorem initStoreSyms_append (a b : List InitItem) :
    initStoreSyms ⟨a ++ b⟩ = initStoreSyms ⟨a⟩ ++ initStoreSyms ⟨b⟩ :=
  List.filterMap_append a b _

theorem mapHoisted_body {hoisted : List (Value × Nat)} {opId : Nat} :
    ∀ (idxs : List Nat) (cs : CloneState) (b : Bool),
      ∃ tail, (mapHoisted hoisted opId idxs cs b).1.body = cs.body ++ tail ∧
        initStoreSyms ⟨tail⟩ = [] ∧
        ∀ sym ∈ initLoadSyms ⟨tail⟩, ∃ v', alookup hoisted v' = some sym
  | [], cs, b => ⟨[], by simp [mapHoisted], rfl, by intro sym h; simp [initLoadSyms] at h⟩
  | i :: rest, cs, b => by
    rw [mapHoisted]
    cases hm : alookup hoisted (Value.result opId i) with
    | none =>
      exact ⟨[], by simp, rfl, by intro sym h; simp [initLoadSyms] at h⟩
    | some sym =>
      obtain ⟨tail, h1, h2, h3⟩ := mapHoisted_body rest
        ⟨cs.body ++ [InitItem.load sym],
         (Value.result opId i, IVal.loadRes cs.loadCount) :: cs.cmap, cs.loadCount + 1⟩ false
      refine ⟨InitItem.load sym :: tail, ?_, ?_, ?_⟩
      · rw [h1]
        simp
      · rw [show (InitItem.load sym :: tail) = [InitItem.load sym] ++ tail from rfl,
          initStoreSyms_append, h2]
        rfl
      · intro sym' hs
        rw [show (InitItem.load sym :: tail) = [InitItem.load sym] ++ tail from rfl,
          initLoadSyms_append] at hs
        rcases List.mem_append.mp hs with h | h
        · simp [initLoadSyms] at h
          exact ⟨Value.result opId i, h ▸ hm⟩
        · exact h3 sym' h

theorem cloneOpInto_body (op : Op) (cs : CloneState) :
    ∃ tail, (cloneOpInto op cs).body = cs.body ++ tail ∧
      initStoreSyms ⟨tail⟩ = [] ∧
      ∀ sym ∈ initLoadSyms ⟨tail⟩, op.kind = OpKind.globalLoad sym := by
  refine ⟨[InitItem.clonedOp op.id op.kind (op.operands.map (remapOperand cs.cmap))],
    rfl, rfl, ?_⟩
  intro sym hs
  cases hkind : op.kind with
  | original =>
    rw [hkind] at hs
    simp [initLoadSyms] at hs
  | globalLoad sym' =>
    rw [hkind] at hs
    simp [initLoadSyms] at hs
    simp [hkind, hs]

theorem processSliceOp_body (hoisted : List (Value × Nat)) (cs : CloneState) (op : Op) :
    ∃ tail, (processSliceOp hoisted cs op).body = cs.body ++ tail ∧
      initStoreSyms ⟨tail⟩ = [] ∧
      ∀ sym ∈ initLoadSyms ⟨tail⟩,
        (∃ v', alookup hoisted v' = some sym) ∨ op.kind = OpKind.globalLoad sym := by
  rw [processSliceOp]
  obtain ⟨tail1, h1, h2, h3⟩ :=
    mapHoisted_body (List.range op.resultTypes.length) cs true
  by_cases hb : (mapHoisted hoisted op.id (List.range op.resultTypes.length) cs true).2
  · rw [if_pos hb]
    obtain ⟨tail2, g1, g2, g3⟩ :=
      cloneOpInto_body op (mapHoisted hoisted op.id (List.range op.resultTypes.length) cs true).1
    refine ⟨tail1 ++ tail2, ?_, ?_, ?_⟩
    · rw [g1, h1, List.append_assoc]
    · rw [initStoreSyms_append, h2, g2]
      rfl
    · intro sym hs
      rw [initLoadSyms_append] at hs
      rcases List.mem_append.mp hs with h | h
      · exact Or.inl (h3 sym h)
      · exact Or.inr (g3 sym h)
  · rw [if_neg hb]
    exact ⟨tail1, h1, h2, fun sym hs => Or.inl (h3 sym hs)⟩

theorem sliceFold_body {hoisted : List (Value × Nat)} {prog : List Op} :
    ∀ (slice : List Op) (cs : CloneState), (∀ op ∈ slice, op ∈ prog) →
      ∃ tail, (slice.foldl (processSliceOp hoisted) cs).body = cs.body ++ tail ∧
        initStoreSyms ⟨tail⟩ = [] ∧
        ∀ sym ∈ initLoadSyms ⟨tail⟩,
          (∃ v', alookup hoisted v' = some sym) ∨ sym ∈ progLoadSyms prog
  | [], cs, _ => ⟨[], by simp, rfl, by intro sym h; simp [initLoadSyms] at h⟩
  | op :: rest, cs, hsub => by
    rw [List.foldl_cons]
    obtain ⟨tail1, h1, h2, h3⟩ := processSliceOp_body hoisted cs op
    obtain ⟨tail2, g1, g2, g3⟩ := sliceFold_body rest (processSliceOp hoisted cs op)
      fun op' hop' => hsub op' (List.mem_cons_of_mem _ hop')
    refine ⟨tail1 ++ tail2, ?_, ?_, ?_⟩
    · rw [g1, h1, List.append_assoc]
    · rw [initStoreSyms_append, h2, g2]
      rfl
    · intro sym hs
      rw [initLoadSyms_append] at hs
      rcases List.mem_append.mp hs with h | h
      · rcases h3 sym h with h' | h'
        · exact Or.inl h'
        · exact Or.inr (mem_progLoadSyms.mpr ⟨op, hsub op (List.mem_cons_self _ _), h'⟩)
      · exact g3 sym h

theorem storeList_syms (base : Nat) (g : Nat → IVal) :
    ∀ n, initStoreSyms ⟨(List.range n).map fun i => InitItem.store (base + i) (g i)⟩ =
        (List.range n).map (base + ·) ∧
      initLoadSyms ⟨(List.range n).map fun i => InitItem.store (base + i) (g i)⟩ = []
  | 0 => ⟨rfl, rfl⟩
  | n + 1 => by
    obtain ⟨h1, h2⟩ := storeList_syms base g n
    rw [List.range_succ, List.map_append, List.map_append]
    constructor
    · rw [initStoreSyms_append, h1]
      rfl
    · rw [initLoadSyms_append, h2]
      rfl

theorem newInitFor_spec {s : ModuleState} {rootId : Nat} {rootOp : Op}
    (hroot : findOp s.prog rootId = some rootOp) :
    initStoreSyms (newInitFor s rootId rootOp) =
      (List.range rootOp.resultTypes.length).map (s.nextSym + ·) ∧
    ∀ sym ∈ initLoadSyms (newInitFor s rootId rootOp),
      (∃ v', alookup s.hoisted v' = some sym) ∨ sym ∈ progLoadSyms s.prog := by
  have hsub : ∀ op ∈ getBackwardSlice s.prog rootOp, op ∈ s.prog :=
    fun op hop => getBackwardSlice_subset hop
  obtain ⟨tail1, h1, h2, h3⟩ := sliceFold_body (getBackwardSlice s.prog rootOp)
    ⟨[], [], 0⟩ hsub
  obtain ⟨tail2, g1, g2, g3⟩ := cloneOpInto_body rootOp
    ((getBackwardSlice s.prog rootOp).foldl (processSliceOp s.hoisted) ⟨[], [], 0⟩)
  obtain ⟨st1, st2⟩ := storeList_syms s.nextSym
    (fun i => remapOperand (sliceClone s rootOp).cmap (Value.result rootId i))
    rootOp.resultTypes.length
  have hbody : (newInitFor s rootId rootOp).body =
      (tail1 ++ tail2) ++
      ((List.range rootOp.resultTypes.length).map fun i =>
        InitItem.store (s.nextSym + i)
          (remapOperand (sliceClone s rootOp).cmap (Value.result rootId i))) ++
      [InitItem.ret] := by
    show (sliceClone s rootOp).body ++ _ ++ _ = _
    rw [sliceClone, g1, h1]
    simp
  constructor
  · rw [show newInitFor s rootId rootOp = ⟨(newInitFor s rootId rootOp).body⟩ from rfl,
      hbody, initStoreSyms_append, initStoreSyms_append, initStoreSyms_append, h2, g2, st1]
    simp [initStoreSyms]
  · intro sym hs
    rw [show newInitFor s rootId rootOp = ⟨(newInitFor s rootId rootOp).body⟩ from rfl,
      hbody, initLoadSyms_append, initLoadSyms_append, initLoadSyms_append] at hs
    rcases List.mem_append.mp hs with hs' | hs'
    · rcases List.mem_append.mp hs' with hs'' | hs''
      · rcases List.mem_append.mp hs'' with hA | hA
        · exact h3 sym hA
        · rcases g3 sym hA with h'
          exact Or.inr (mem_progLoadSyms.mpr ⟨rootOp, findOp_mem hroot, h'⟩)
      · rw [st2] at hs''
        simp at hs''
    · simp [initLoadSyms] at hs'

/-! Preservation of the symbol invariant. -/

theorem storedBefore_mono {s s' : ModuleState} {j sym : Nat}
    (h : storedBefore s j sym) (hin : ∃ suffix, s'.inits = s.inits ++ suffix) :
    storedBefore s' j sym := by
  obtain ⟨k, hk, ini, hget, hmem⟩ := h
  obtain ⟨suf, heq⟩ := hin
  refine ⟨k, hk, ini, ?_, hmem⟩
  rw [heq, List.get?_append (get?_some_lt hget)]
  exact hget

theorem declaredSyms_newGlobals (base : Nat) (rootOp : Op) :
    (newGlobalsFor base rootOp).map GlobalOp.sym =
      (List.range rootOp.resultTypes.length).map (base + ·) := by
  rw [newGlobalsFor, List.map_map]
  rfl

theorem cloneConstExprInto_SymInv {s : ModuleState} (hS : SymInv s) (v : Value) :
    SymInv (cloneConstExprInto s v) := by
  cases v with
  | blockArg n => exact hS
  | result rootId i =>
    cases hroot : findOp s.prog rootId with
    | none =>
      rw [cloneConstExprInto, hroot]
      exact hS
    | some rootOp =>
      rw [cloneConstExprInto_eq hroot i]
      obtain ⟨hS1, hS2, hS3, hS4, hS5, hS6⟩ := hS
      obtain ⟨hst, hld⟩ := newInitFor_spec hroot
      have hsuffix : ∃ suffix,
          ({ s with
            globals := newGlobalsFor s.nextSym rootOp ++ s.globals
            inits := s.inits ++ [newInitFor s rootId rootOp]
            hoisted := newHoistedFor s.nextSym rootId rootOp.resultTypes.length ++ s.hoisted
            nextSym := s.nextSym + rootOp.resultTypes.length } : ModuleState).inits =
          s.inits ++ suffix :=
        ⟨[newInitFor s rootId rootOp], rfl⟩
      have hdecl : ∀ sym', sym' ∈ declaredSyms s →
          sym' ∈ (newGlobalsFor s.nextSym rootOp ++ s.globals).map GlobalOp.sym := by
        intro sym' h'
        rw [List.map_append]
        exact List.mem_append_right _ h'
      have hdeclnew : ∀ i', i' < rootOp.resultTypes.length →
          s.nextSym + i' ∈ (newGlobalsFor s.nextSym rootOp ++ s.globals).map GlobalOp.sym := by
        intro i' hi'
        rw [List.map_append, declaredSyms_newGlobals]
        exact List.mem_append_left _
          (List.mem_map.mpr ⟨i', List.mem_range.mpr hi', rfl⟩)
      constructor
      · -- memoized symbols are declared and stored
        intro p hp
        simp only at hp ⊢
        rcases List.mem_append.mp hp with h1 | h2
        · rcases List.mem_map.mp h1 with ⟨i', hi', heq⟩
          rw [← heq]
          refine ⟨hdeclnew i' (List.mem_range.mp hi'), s.inits.length, ?_, _,
            List.get?_concat_length s.inits (newInitFor s rootId rootOp), ?_⟩
          · simp
          · rw [hst]
            exact List.mem_map.mpr ⟨i', hi', rfl⟩
        · obtain ⟨hd, hs'⟩ := hS1 p h2
          refine ⟨hdecl p.2 hd, ?_⟩
          obtain ⟨k, hk, ini, hget, hmem⟩ := storedBefore_mono hs' hsuffix
          exact ⟨k, by simp only [List.length_append, List.length_cons]; omega, ini, hget, hmem⟩
      constructor
      · -- program-body load symbols
        intro sym hsym
        simp only at hsym ⊢
        obtain ⟨hd, hs'⟩ := hS2 sym hsym
        refine ⟨hdecl sym hd, ?_⟩
        obtain ⟨k, hk, ini, hget, hmem⟩ := storedBefore_mono hs' hsuffix
        exact ⟨k, by simp only [List.length_append, List.length_cons]; omega, ini, hget, hmem⟩
      constructor
      · -- initializer load symbols
        intro j ini hget sym hsym
        simp only at hget ⊢
        have hjlt : j < s.inits.length + 1 := by
          have := get?_some_lt hget
          simpa using this
        by_cases hj : j < s.inits.length
        · rw [List.get?_append hj] at hget
          obtain ⟨hd, hs'⟩ := hS3 j ini hget sym hsym
          exact ⟨hdecl sym hd, storedBefore_mono hs' hsuffix⟩
        · have hjeq : j = s.inits.length := by omega
          subst hjeq
          rw [List.get?_concat_length] at hget
          have hini : ini = newInitFor s rootId rootOp := by
            rw [Option.some.injEq] at hget
            exact hget.symm
          subst hini
          rcases hld sym hsym with ⟨v', hv'⟩ | hpl
          · obtain ⟨hd, hs'⟩ := hS1 (v', sym) (alookup_mem hv')
            exact ⟨hdecl sym hd, storedBefore_mono hs' hsuffix⟩
          · obtain ⟨hd, hs'⟩ := hS2 sym hpl
            exact ⟨hdecl sym hd, storedBefore_mono hs' hsuffix⟩
      constructor
      · -- store symbols are globally distinct
        simp only [List.flatMap_append]
        refine List.Nodup.append hS4 ?_ ?_
        · simp only [List.flatMap_cons, List.flatMap_nil, List.append_nil, hst]
          refine List.Nodup.map ?_ (List.nodup_range _)
          intro a b hab
          have hab' : s.nextSym + a = s.nextSym + b := hab
          omega
        · intro a ha hb
          simp only [List.flatMap_cons, List.flatMap_nil, List.append_nil, hst] at hb
          rcases List.mem_map.mp hb with ⟨i', _, heq⟩
          have := hS5 a ha
          omega
      constructor
      · -- store symbols below the uniquing counter
        intro sym hsym
        simp only [List.flatMap_append, List.flatMap_cons, List.flatMap_nil,
          List.append_nil, hst] at hsym ⊢
        rcases List.mem_append.mp hsym with h1 | h2
        · have := hS5 sym h1
          omega
        · rcases List.mem_map.mp h2 with ⟨i', hi', heq⟩
          have := List.mem_range.mp hi'
          omega
      · -- declared symbols below the uniquing counter
        intro sym hsym
        simp only [declaredSyms, List.map_append, declaredSyms_newGlobals] at hsym ⊢
        rcases List.mem_append.mp hsym with h1 | h2
        · rcases List.mem_map.mp h1 with ⟨i', hi', heq⟩
          have := List.mem_range.mp hi'
          omega
        · have := hS6 sym h2
          omega

theorem progLoadSyms_insert {prog : List Op} {o k : Nat} {lop : Op} {sym' : Nat}
    (h : sym' ∈ progLoadSyms (insertLoadBefore prog o k lop)) :
    sym' ∈ progLoadSyms prog ∨ Op.kind lop = OpKind.globalLoad sym' := by
  obtain ⟨op', hop', hk⟩ := mem_progLoadSyms.mp h
  rcases mem_insertLoadBefore hop' with heq | ⟨op, hop, _, hkind, _⟩
  · exact Or.inr (heq ▸ hk)
  · exact Or.inl (mem_progLoadSyms.mpr ⟨op, hop, hkind ▸ hk⟩)

theorem hoistConstExpr_SymInv {s : ModuleState} (hS : SymInv s) (o k : Nat) :
    SymInv (hoistConstExpr s o k) := by
  rcases hoistConstExpr_shape s o k with h | ⟨v, _, h⟩ |
    ⟨v, s1, sym, lop, hv, hs1, hmsym, hid, hkind, hops, h⟩
  · rw [h]; exact hS
  · rw [h]; exact cloneConstExprInto_SymInv hS v
  · have hS1 : SymInv s1 := by
      rcases hs1 with rfl | ⟨_, rfl⟩
      · exact hS
      · exact cloneConstExprInto_SymInv hS v
    have hp1 : s1.prog = s.prog := by
      rcases hs1 with rfl | ⟨_, rfl⟩
      · rfl
      · exact cloneConstExprInto_prog s v
    obtain ⟨hS1a, hS1b, hS1c, hS1d, hS1e, hS1f⟩ := hS1
    rw [h]
    refine ⟨fun p hp => hS1a p hp, ?_, fun j ini hget sym' hsym' => hS1c j ini hget sym' hsym',
      hS1d, fun sym' hsym' => hS1e sym' hsym', fun sym' hsym' => hS1f sym' hsym'⟩
    intro sym' hsym'
    simp only at hsym' ⊢
    rcases progLoadSyms_insert hsym' with hold | hnew
    · rw [← hp1] at hold
      exact hS1b sym' hold
    · rw [hkind] at hnew
      injection hnew with hse
      subst hse
      exact hS1a (v, sym) (alookup_mem hmsym)

theorem reaches_SymInv {s0 s : ModuleState}
    (h : Relation.ReflTransGen HoistStep s0 s) (h0 : SymInv s0) : SymInv s := by
  induction h with
  | refl => exact h0
  | tail _ hstep ih =>
    cases hstep with
    | mk o k s' => exact hoistConstExpr_SymInv ih o k

theorem initState_SymInv {p : List Op} (hkinds : ∀ op ∈ p, op.kind = OpKind.original) :
    SymInv (initState p) := by
  refine ⟨fun p' hp' => by simp [initState] at hp', ?_, ?_, by simp [initState],
    fun sym h => by simp [initState] at h, fun sym h => by simp [initState, declaredSyms] at h⟩
  · intro sym hsym
    obtain ⟨op, hop, hkind⟩ := mem_progLoadSyms.mp hsym
    rw [hkinds op hop] at hkind
    exact absurd hkind (by simp)
  · intro j ini hget
    simp [initState] at hget

theorem nodup_flatMap_index_unique {γ : Type} {f : γ → List Nat} :
    ∀ {l : List γ} {i j a : Nat} {xi xj : γ}, (l.flatMap f).Nodup →
      l.get? i = some xi → l.get? j = some xj → a ∈ f xi → a ∈ f xj → i = j
  | [], i, j, a, xi, xj, _, hi, _, _, _ => by simp at hi
  | hd :: rest, i, j, a, xi, xj, hnd, hi, hj, hai, haj => by
    rw [List.flatMap_cons, List.nodup_append] at hnd
    obtain ⟨hn1, hn2, hdisj⟩ := hnd
    match i, j with
    | 0, 0 => rfl
    | 0, j + 1 =>
      exfalso
      simp only [List.get?_cons_zero, Option.some.injEq] at hi
      simp only [List.get?_cons_succ] at hj
      refine hdisj (hi ▸ hai) ?_
      exact List.mem_flatMap.mpr ⟨xj, List.get?_mem hj, haj⟩
    | i + 1, 0 =>
      exfalso
      simp only [List.get?_cons_zero, Option.some.injEq] at hj
      simp only [List.get?_cons_succ] at hi
      refine hdisj (hj ▸ haj) ?_
      exact List.mem_flatMap.mpr ⟨xi, List.get?_mem hi, hai⟩
    | i + 1, j + 1 =>
      simp only [List.get?_cons_succ] at hi hj
      exact congrArg (· + 1) (nodup_flatMap_index_unique hn2 hi hj hai haj)

/-! The dead-op sweep only erases operations. -/

theorem eraseOp_subset {prog : List Op} {i : Nat} {op : Op}
    (h : op ∈ eraseOp prog i) : op ∈ prog :=
  List.mem_of_mem_filter h

theorem scanOnce_cons_none {extra : List Value} {prog : List Op} {opId : Nat}
    (rest : List Nat) (hf : findOp prog opId = none) :
    scanOnce extra prog (opId :: rest) =
      ((scanOnce extra prog rest).1, opId :: (scanOnce extra prog rest).2.1,
        (scanOnce extra prog rest).2.2) := by
  rw [scanOnce, hf]

theorem scanOnce_cons_erase {extra : List Value} {prog : List Op} {opId : Nat}
    {checkOp : Op} (rest : List Nat) (hf : findOp prog opId = some checkOp)
    (hu : useEmptyIn prog extra checkOp = true) :
    scanOnce extra prog (opId :: rest) =
      ((scanOnce extra (eraseOp prog opId) rest).1,
        (scanOnce extra (eraseOp prog opId) rest).2.1, true) := by
  rw [scanOnce, hf]
  simp only [hu, if_true]

theorem scanOnce_cons_keep {extra : List Value} {prog : List Op} {opId : Nat}
    {checkOp : Op} (rest : List Nat) (hf : findOp prog opId = some checkOp)
    (hu : useEmptyIn prog extra checkOp = false) :
    scanOnce extra prog (opId :: rest) =
      ((scanOnce extra prog rest).1, opId :: (scanOnce extra prog rest).2.1,
        (scanOnce extra prog rest).2.2) := by
  rw [scanOnce, hf]
  simp only [hu, if_false, Bool.false_eq_true]

theorem scanOnce_subset {extra : List Value} :
    ∀ (pending : List Nat) (prog : List Op) {op : Op},
      op ∈ (scanOnce extra prog pending).1 → op ∈ prog
  | [], prog, op, h => h
  | opId :: rest, prog, op, h => by
    cases hf : findOp prog opId with
    | none =>
      rw [scanOnce_cons_none rest hf] at h
      exact scanOnce_subset rest prog h
    | some checkOp =>
      by_cases hu : useEmptyIn prog extra checkOp
      · rw [scanOnce_cons_erase rest hf hu] at h
        exact eraseOp_subset (scanOnce_subset rest (eraseOp prog opId) h)
      · rw [scanOnce_cons_keep rest hf (by simpa using hu)] at h
        exact scanOnce_subset rest prog h

theorem sweepN_subset {extra : List Value} :
    ∀ (fuel : Nat) (prog : List Op) (pending : List Nat) {op : Op},
      op ∈ (sweepN extra fuel prog pending).1 → op ∈ prog
  | 0, prog, pending, op, h => h
  | fuel + 1, prog, pending, op, h => by
    rw [sweepN] at h
    by_cases hc : (scanOnce extra prog pending).2.2
    · rw [if_pos hc] at h
      exact scanOnce_subset pending prog (sweepN_subset fuel _ _ h)
    · rw [if_neg hc] at h
      exact scanOnce_subset pending prog h

theorem runPass_prog_subset {an : Analysis} {p : List Op} {op : Op}
    (h : op ∈ (runPass an p).prog) :
    op ∈ (walkAll an (initState p) (p.map Op.id)).prog :=
  sweepN_subset _ _ _ h

/-- C4: in the transformed module, whenever initializer `ini2` loads a global
whose defining store is emitted by initializer `ini1`, `ini1` appears
strictly before `ini2` in module order (initializers are appended at module
end in walk processing order). -/
theorem initializer_topological_order
    (an : Analysis) (p : List Op)
    (hkinds : ∀ op ∈ p, op.kind = OpKind.original)
    (j1 j2 : Nat) (ini1 ini2 : Initializer) (sym : Nat)
    (h1 : (runPass an p).inits.get? j1 = some ini1)
    (h2 : (runPass an p).inits.get? j2 = some ini2)
    (hstore : sym ∈ initStoreSyms ini1)
    (hload : sym ∈ initLoadSyms ini2) :
    j1 < j2 := by
  have hSW : SymInv (walkAll an (initState p) (p.map Op.id)) :=
    reaches_SymInv (reaches_walkAll an (initState p) (p.map Op.id))
      (initState_SymInv hkinds)
  have hie : (runPass an p).inits = (walkAll an (initState p) (p.map Op.id)).inits := rfl
  rw [hie] at h1 h2
  obtain ⟨_, k, hk, inik, hgetk, hmemk⟩ := hSW.2.2.1 j2 ini2 h2 sym hload
  have : j1 = k := nodup_flatMap_index_unique hSW.2.2.2.1 h1 hgetk hstore hmemk
  omega

/-- C5: every global referenced by a load anywhere in the transformed module
(at an escape site in the body or inside an initializer) is declared at a
strictly earlier position in module order; globals sit at the beginning of
the module and initializers at the end. -/
theorem global_placement
    (an : Analysis) (p : List Op)
    (hkinds : ∀ op ∈ p, op.kind = OpKind.original)
    (idx : Nat) (item : ModuleItem)
    (hitem : (moduleItems (runPass an p)).get? idx = some item)
    (sym : Nat) (hsym : sym ∈ itemLoadSyms item) :
    ∃ gidx g, gidx < idx ∧
      (moduleItems (runPass an p)).get? gidx = some (ModuleItem.global g) ∧
      g.sym = sym := by
  have hSW : SymInv (walkAll an (initState p) (p.map Op.id)) :=
    reaches_SymInv (reaches_walkAll an (initState p) (p.map Op.id))
      (initState_SymInv hkinds)
  have hge : (runPass an p).globals = (walkAll an (initState p) (p.map Op.id)).globals := rfl
  have hie : (runPass an p).inits = (walkAll an (initState p) (p.map Op.id)).inits := rfl
  -- the item holding the load is not in the globals region
  have hglen : ((runPass an p).globals.map ModuleItem.global).length ≤ idx := by
    by_contra hlt
    push_neg at hlt
    rw [moduleItems, List.append_assoc, List.get?_append hlt, List.get?_map] at hitem
    cases hg : (runPass an p).globals.get? idx with
    | none => rw [hg] at hitem; exact absurd hitem (by simp)
    | some g =>
      rw [hg] at hitem
      simp only [Option.map_some', Option.some.injEq] at hitem
      rw [← hitem] at hsym
      simp [itemLoadSyms] at hsym
  -- the loaded symbol is declared
  have hdecl : sym ∈ declaredSyms (walkAll an (initState p) (p.map Op.id)) := by
    rw [moduleItems, List.append_assoc,
      List.get?_append_right (by simpa using hglen)] at hitem
    rcases hrest : ((runPass an p).prog.map ModuleItem.bodyOp ++
        (runPass an p).inits.map ModuleItem.initOp).get?
        (idx - ((runPass an p).globals.map ModuleItem.global).length) with _ | item'
    · rw [hrest] at hitem; exact absurd hitem (by simp)
    rw [hrest] at hitem
    rw [Option.some.injEq] at hitem
    subst hitem
    by_cases hplen : idx - ((runPass an p).globals.map ModuleItem.global).length <
        ((runPass an p).prog.map ModuleItem.bodyOp).length
    · rw [List.get?_append hplen, List.get?_map] at hrest
      cases hop : (runPass an p).prog.get? (idx - _) with
      | none => rw [hop] at hrest; exact absurd hrest (by simp)
      | some op =>
        rw [hop] at hrest
        simp only [Option.map_some', Option.some.injEq] at hrest
        rw [← hrest] at hsym
        cases hkind : op.kind with
        | original => rw [itemLoadSyms, hkind] at hsym; simp at hsym
        | globalLoad sym' =>
          rw [itemLoadSyms, hkind] at hsym
          simp only [List.mem_singleton] at hsym
          have hmem : op ∈ (walkAll an (initState p) (p.map Op.id)).prog :=
            runPass_prog_subset (List.get?_mem hop)
          rw [hsym]
          exact (hSW.2.1 sym' (mem_progLoadSyms.mpr ⟨op, hmem, hkind⟩)).1
    · rw [List.get?_append_right (by omega), List.get?_map] at hrest
      cases hini : (runPass an p).inits.get? _ with
      | none => rw [hini] at hrest; exact absurd hrest (by simp)
      | some ini =>
        rw [hini] at hrest
        simp only [Option.map_some', Option.some.injEq] at hrest
        rw [← hrest] at hsym
        rw [hie] at hini
        exact (hSW.2.2.1 _ ini hini sym hsym).1
  -- find the declaring global's position
  rw [declaredSyms, ← hge] at hdecl
  obtain ⟨g, hgmem, hgsym⟩ := List.mem_map.mp hdecl
  obtain ⟨gidx, hgidx⟩ := List.get?_of_mem hgmem
  have hglt : gidx < (runPass an p).globals.length := get?_some_lt hgidx
  refine ⟨gidx, g, by simpa using Nat.lt_of_lt_of_le (by simpa using hglt) hglen, ?_, hgsym⟩
  rw [moduleItems, List.append_assoc, List.get?_append (by simpa using hglt), List.get?_map,
    hgidx]
  rfl

theorem hoistConstExpr_globals_mono {s : ModuleState} {g : GlobalOp}
    (h : g ∈ s.globals) (o k : Nat) : g ∈ (hoistConstExpr s o k).globals := by
  have hclone : ∀ v, g ∈ (cloneConstExprInto s v).globals := by
    intro v
    cases v with
    | blockArg n => exact h
    | result rootId i =>
      cases hroot : findOp s.prog rootId with
      | none => rw [cloneConstExprInto, hroot]; exact h
      | some rootOp =>
        rw [cloneConstExprInto_eq hroot i]
        exact List.mem_append_right _ h
  rcases hoistConstExpr_shape s o k with heq | ⟨v, _, heq⟩ |
    ⟨v, s1, sym, lop, _, hs1, _, _, _, _, heq⟩
  · rw [heq]; exact h
  · rw [heq]; exact hclone v
  · rw [heq]
    rcases hs1 with rfl | ⟨_, rfl⟩
    · exact h
    · exact hclone v

theorem reaches_globals_mono {s0 s' : ModuleState}
    (h : Relation.ReflTransGen HoistStep s0 s') {g : GlobalOp} (hg : g ∈ s0.globals) :
    g ∈ s'.globals := by
  induction h with
  | refl => exact hg
  | tail _ hstep ih =>
    cases hstep with
    | mk o k s'' => exact hoistConstExpr_globals_mono ih o k

/-- C3: a hoisting call for a value of an operation with `N` results creates
exactly `N` fresh globals (one per result, typed to match that result, with
pairwise-distinct symbols) and exactly one new initializer shared by all of
them; each new global is written by exactly one store, emitted in that
initializer; every result is registered in the memo table; and globals are
never deleted by the pass (every mutation step and the final cleanup keep
them). -/
theorem atomic_multi_result_hoist
    (s : ModuleState) (rootId i : Nat) (rootOp : Op)
    (hroot : findOp s.prog rootId = some rootOp) :
    (cloneConstExprInto s (Value.result rootId i)).globals =
      newGlobalsFor s.nextSym rootOp ++ s.globals ∧
    (newGlobalsFor s.nextSym rootOp).length = rootOp.resultTypes.length ∧
    (∀ t < rootOp.resultTypes.length,
      (newGlobalsFor s.nextSym rootOp).get? t =
        some ⟨s.nextSym + t, (rootOp.resultTypes.get? t).getD 0⟩) ∧
    ((newGlobalsFor s.nextSym rootOp).map GlobalOp.sym).Nodup ∧
    (cloneConstExprInto s (Value.result rootId i)).inits =
      s.inits ++ [newInitFor s rootId rootOp] ∧
    initStoreSyms (newInitFor s rootId rootOp) =
      (List.range rootOp.resultTypes.length).map (s.nextSym + ·) ∧
    (∀ t < rootOp.resultTypes.length,
      (initStoreSyms (newInitFor s rootId rootOp)).count (s.nextSym + t) = 1) ∧
    (∀ t < rootOp.resultTypes.length,
      alookup (cloneConstExprInto s (Value.result rootId i)).hoisted
        (Value.result rootId t) = some (s.nextSym + t)) ∧
    (∀ (s0 s' : ModuleState), Relation.ReflTransGen HoistStep s0 s' →
      ∀ g ∈ s0.globals, g ∈ s'.globals) ∧
    (∀ (an : Analysis) (p : List Op),
      (runPass an p).globals = (walkAll an (initState p) (p.map Op.id)).globals) := by
  have hstores := (newInitFor_spec hroot).1
  have hsymsNodup : ((newGlobalsFor s.nextSym rootOp).map GlobalOp.sym).Nodup := by
    rw [declaredSyms_newGlobals]
    refine List.Nodup.map ?_ (List.nodup_range _)
    intro a b hab
    have hab' : s.nextSym + a = s.nextSym + b := hab
    omega
  refine ⟨?_, ?_, ?_, hsymsNodup, ?_, hstores, ?_, ?_, ?_, ?_⟩
  · rw [cloneConstExprInto_eq hroot i]
  · rw [newGlobalsFor, List.length_map, List.length_range]
  · intro t ht
    rw [newGlobalsFor, List.get?_map, List.get?_range ht]
    rfl
  · rw [cloneConstExprInto_eq hroot i]
  · intro t ht
    rw [hstores]
    refine List.count_eq_one_of_mem ?_ ?_
    · refine List.Nodup.map ?_ (List.nodup_range _)
      intro a b hab
      have hab' : s.nextSym + a = s.nextSym + b := hab
      omega
    · exact List.mem_map.mpr ⟨t, List.mem_range.mpr ht, rfl⟩
  · intro t ht
    rw [cloneConstExprInto_eq hroot i]
    simp only
    exact alookup_append_left_some _ (alookup_newHoistedFor ht)
  · exact fun s0 s' h g hg => reaches_globals_mono h hg
  · exact fun an p => rfl

theorem mapHoisted_cmap_frame {hoisted : List (Value × Nat)} {opId : Nat} {w : Value} :
    ∀ (idxs : List Nat) (cs : CloneState) (b : Bool),
      (∀ t ∈ idxs, w ≠ Value.result opId t) →
      alookup (mapHoisted hoisted opId idxs cs b).1.cmap w = alookup cs.cmap w
  | [], cs, b, _ => rfl
  | t :: rest, cs, b, hw => by
    rw [mapHoisted]
    cases hm : alookup hoisted (Value.result opId t) with
    | none => rfl
    | some sym =>
      rw [mapHoisted_cmap_frame rest _ false
        fun t' ht' => hw t' (List.mem_cons_of_mem t ht')]
      rw [alookup, if_neg (hw t (List.mem_cons_self t rest))]

theorem mapHoisted_mapped_spec {hoisted : List (Value × Nat)} {opId : Nat} :
    ∀ (idxs : List Nat) (cs : CloneState) (b : Bool), idxs.Nodup →
      (∀ t ∈ idxs, (alookup hoisted (Value.result opId t)).isSome = true) →
      (mapHoisted hoisted opId idxs cs b).1.body =
        cs.body ++ idxs.map (fun t =>
          InitItem.load ((alookup hoisted (Value.result opId t)).getD 0)) ∧
      (mapHoisted hoisted opId idxs cs b).1.loadCount = cs.loadCount + idxs.length ∧
      (∀ t ∈ idxs, ∃ p, idxs.get? p = some t ∧
        alookup (mapHoisted hoisted opId idxs cs b).1.cmap (Value.result opId t) =
          some (IVal.loadRes (cs.loadCount + p))) ∧
      (idxs ≠ [] → (mapHoisted hoisted opId idxs cs b).2 = false)
  | [], cs, b, _, _ => ⟨by simp [mapHoisted], by simp [mapHoisted],
      fun t ht => absurd ht (by simp), fun h => absurd rfl h⟩
  | t :: rest, cs, b, hnd, hall => by
    have hsome := hall t (List.mem_cons_self t rest)
    cases hm : alookup hoisted (Value.result opId t) with
    | none => rw [hm] at hsome; exact absurd hsome (by simp)
    | some sym =>
      rw [List.nodup_cons] at hnd
      rw [mapHoisted, hm]
      obtain ⟨ih1, ih2, ih3, _⟩ := mapHoisted_mapped_spec rest
        ⟨cs.body ++ [InitItem.load sym],
         (Value.result opId t, IVal.loadRes cs.loadCount) :: cs.cmap, cs.loadCount + 1⟩
        false hnd.2 (fun t' ht' => hall t' (List.mem_cons_of_mem t ht'))
      refine ⟨?_, ?_, ?_, ?_⟩
      · rw [ih1]
        simp [hm]
      · rw [ih2]
        simp only [List.length_cons]
        omega
      · intro t' ht'
        rcases List.mem_cons.mp ht' with rfl | hrest
        · refine ⟨0, rfl, ?_⟩
          rw [mapHoisted_cmap_frame rest _ false ?_]
          · rw [alookup, if_pos rfl]
            rfl
          · intro t2 ht2 hc
            injection hc with hc1 hc2
            exact hnd.1 (hc2 ▸ ht2)
        · obtain ⟨p, hp1, hp2⟩ := ih3 t' hrest
          refine ⟨p + 1, by simpa using hp1, ?_⟩
          rw [hp2]
          simp only
          rw [Nat.add_assoc, Nat.add_comm 1 p]
      · intro _
        by_cases hrest : rest = []
        · subst hrest
          rfl
        · exact (mapHoisted_mapped_spec rest _ false hnd.2
            (fun t' ht' => hall t' (List.mem_cons_of_mem t ht'))).2.2.2 hrest

theorem clone_hoisted_frame {s : ModuleState} {rootId i : Nat} {rootOp : Op} {w : Value}
    (hroot : findOp s.prog rootId = some rootOp)
    (hw : ∀ t, w ≠ Value.result rootId t) :
    alookup (cloneConstExprInto s (Value.result rootId i)).hoisted w =
      alookup s.hoisted w := by
  rw [cloneConstExprInto_eq hroot i]
  simp only
  exact alookup_append_left_none _ (alookup_newHoistedFor_ne fun t _ => hw t)

/-- C6: for every operation processed by the slice cloner: if all of its
results are already memoized, a load of each existing global is created in
the initializer body, registered only in the clone's value mapping (the memo
table gains entries only for the defining op's own results), and the
operation is not cloned; otherwise the operation is cloned with its operands
remapped.  The defining operation itself is cloned after the slice, before
the stores and terminator. -/
theorem slice_cloner_step
    (hoisted : List (Value × Nat)) (cs : CloneState) (op : Op)
    (hn : 1 ≤ op.resultTypes.length) :
    ((∀ t < op.resultTypes.length,
        (alookup hoisted (Value.result op.id t)).isSome = true) →
      (processSliceOp hoisted cs op).body =
        cs.body ++ (List.range op.resultTypes.length).map (fun t =>
          InitItem.load ((alookup hoisted (Value.result op.id t)).getD 0)) ∧
      (∀ t < op.resultTypes.length,
        alookup (processSliceOp hoisted cs op).cmap (Value.result op.id t) =
          some (IVal.loadRes (cs.loadCount + t))) ∧
      (processSliceOp hoisted cs op).loadCount =
        cs.loadCount + op.resultTypes.length) ∧
    ((∀ t, alookup hoisted (Value.result op.id t) = none) →
      processSliceOp hoisted cs op = cloneOpInto op cs) ∧
    (∀ (s : ModuleState) (rootId : Nat) (rootOp : Op) (w : Value) (i : Nat),
      findOp s.prog rootId = some rootOp →
      ((∀ t, w ≠ Value.result rootId t) →
        alookup (cloneConstExprInto s (Value.result rootId i)).hoisted w =
          alookup s.hoisted w) ∧
      (newInitFor s rootId rootOp).body =
        ((getBackwardSlice s.prog rootOp).foldl (processSliceOp s.hoisted)
          ⟨[], [], 0⟩).body ++
        [InitItem.clonedOp rootOp.id rootOp.kind
          (rootOp.operands.map (remapOperand
            ((getBackwardSlice s.prog rootOp).foldl (processSliceOp s.hoisted)
              ⟨[], [], 0⟩).cmap))] ++
        ((List.range rootOp.resultTypes.length).map fun t =>
          InitItem.store (s.nextSym + t)
            (remapOperand (sliceClone s rootOp).cmap (Value.result rootId t))) ++
        [InitItem.ret]) := by
  refine ⟨?_, ?_, ?_⟩
  · intro hall
    have hall' : ∀ t ∈ List.range op.resultTypes.length,
        (alookup hoisted (Value.result op.id t)).isSome = true :=
      fun t ht => hall t (List.mem_range.mp ht)
    obtain ⟨h1, h2, h3, h4⟩ := mapHoisted_mapped_spec (List.range op.resultTypes.length)
      cs true (List.nodup_range _) hall'
    have hne : List.range op.resultTypes.length ≠ [] := by
      intro hc
      have h0 : op.resultTypes.length = 0 := by
        have := congrArg List.length hc
        simpa using this
      omega
    have hb := h4 hne
    rw [processSliceOp, if_neg (by rw [hb]; simp)]
    refine ⟨h1, ?_, by rw [h2, List.length_range]⟩
    intro t ht
    obtain ⟨p, hp1, hp2⟩ := h3 t (List.mem_range.mpr ht)
    have hpt : p = t := by
      have hlt : p < op.resultTypes.length := by
        have := get?_some_lt hp1
        simpa using this
      rw [List.get?_range hlt] at hp1
      exact Option.some.inj hp1
    rw [hp2, hpt]
  · intro hnone
    cases hN : op.resultTypes.length with
    | zero => omega
    | succ m =>
      rw [processSliceOp, hN, List.range_succ_eq_map, mapHoisted, hnone 0]
      rfl
  · intro s rootId rootOp w i hroot
    refine ⟨fun hw => clone_hoisted_frame hroot hw, ?_⟩
    show (sliceClone s rootOp).body ++ _ ++ _ = _
    rw [sliceClone, cloneOpInto]

/-! The dead-op sweep: traces, fixed point, and preserved operations. -/

theorem scanOnce_kept_length {extra : List Value} :
    ∀ (pending : List Nat) (prog : List Op),
      (scanOnce extra prog pending).2.1.length ≤ pending.length ∧
      ((scanOnce extra prog pending).2.2 = true →
        (scanOnce extra prog pending).2.1.length < pending.length)
  | [], prog => ⟨Nat.le_refl _, fun h => absurd h (by simp [scanOnce])⟩
  | opId :: rest, prog => by
    cases hf : findOp prog opId with
    | none =>
      rw [scanOnce_cons_none rest hf]
      obtain ⟨h1, h2⟩ := scanOnce_kept_length rest prog
      exact ⟨by simpa using Nat.succ_le_succ h1,
        fun h => by simpa using Nat.succ_lt_succ (h2 h)⟩
    | some checkOp =>
      by_cases hu : useEmptyIn prog extra checkOp
      · rw [scanOnce_cons_erase rest hf hu]
        obtain ⟨h1, _⟩ := scanOnce_kept_length rest (eraseOp prog opId)
        exact ⟨by simpa using Nat.le_succ_of_le h1,
          fun _ => by simpa using Nat.lt_succ_of_le h1⟩
      · rw [scanOnce_cons_keep rest hf (by simpa using hu)]
        obtain ⟨h1, h2⟩ := scanOnce_kept_length rest prog
        exact ⟨by simpa using Nat.succ_le_succ h1,
          fun h => by simpa using Nat.succ_lt_succ (h2 h)⟩

theorem scanOnce_kept_subset {extra : List Value} :
    ∀ (pending : List Nat) (prog : List Op) {id : Nat},
      id ∈ (scanOnce extra prog pending).2.1 → id ∈ pending
  | [], prog, id, h => h
  | opId :: rest, prog, id, h => by
    cases hf : findOp prog opId with
    | none =>
      rw [scanOnce_cons_none rest hf] at h
      rcases List.mem_cons.mp h with rfl | h'
      · exact List.mem_cons_self _ _
      · exact List.mem_cons_of_mem _ (scanOnce_kept_subset rest prog h')
    | some checkOp =>
      by_cases hu : useEmptyIn prog extra checkOp
      · rw [scanOnce_cons_erase rest hf hu] at h
        exact List.mem_cons_of_mem _ (scanOnce_kept_subset rest (eraseOp prog opId) h)
      · rw [scanOnce_cons_keep rest hf (by simpa using hu)] at h
        rcases List.mem_cons.mp h with rfl | h'
        · exact List.mem_cons_self _ _
        · exact List.mem_cons_of_mem _ (scanOnce_kept_subset rest prog h')

theorem scanOnce_trace {extra : List Value} {allowed : List Nat} :
    ∀ (pending : List Nat) (prog : List Op), (∀ id ∈ pending, id ∈ allowed) →
      Relation.ReflTransGen (EraseStep extra allowed) prog (scanOnce extra prog pending).1
  | [], prog, _ => Relation.ReflTransGen.refl
  | opId :: rest, prog, hsub => by
    cases hf : findOp prog opId with
    | none =>
      rw [scanOnce_cons_none rest hf]
      exact scanOnce_trace rest prog fun id h => hsub id (List.mem_cons_of_mem _ h)
    | some checkOp =>
      by_cases hu : useEmptyIn prog extra checkOp
      · rw [scanOnce_cons_erase rest hf hu]
        refine Relation.ReflTransGen.head ?_
          (scanOnce_trace rest (eraseOp prog opId)
            fun id h => hsub id (List.mem_cons_of_mem _ h))
        have hstep := @EraseStep.mk extra allowed prog checkOp
          (findOp_mem hf) (findOp_id hf ▸ hsub opId (List.mem_cons_self _ _)) hu
        rw [findOp_id hf] at hstep
        exact hstep
      · rw [scanOnce_cons_keep rest hf (by simpa using hu)]
        exact scanOnce_trace rest prog fun id h => hsub id (List.mem_cons_of_mem _ h)

theorem scanOnce_preserve {extra : List Value} :
    ∀ (pending : List Nat) (prog : List Op) {op : Op},
      op ∈ prog → op.id ∉ pending → op ∈ (scanOnce extra prog pending).1
  | [], prog, op, hmem, _ => hmem
  | opId :: rest, prog, op, hmem, hnot => by
    have hne : op.id ≠ opId := fun hc => hnot (hc ▸ List.mem_cons_self _ _)
    have hnrest : op.id ∉ rest := fun hc => hnot (List.mem_cons_of_mem _ hc)
    cases hf : findOp prog opId with
    | none =>
      rw [scanOnce_cons_none rest hf]
      exact scanOnce_preserve rest prog hmem hnrest
    | some checkOp =>
      by_cases hu : useEmptyIn prog extra checkOp
      · rw [scanOnce_cons_erase rest hf hu]
        refine scanOnce_preserve rest (eraseOp prog opId) ?_ hnrest
        exact List.mem_filter.mpr ⟨hmem, by simpa using hne⟩
      · rw [scanOnce_cons_keep rest hf (by simpa using hu)]
        exact scanOnce_preserve rest prog hmem hnrest

theorem scanOnce_unchanged {extra : List Value} :
    ∀ (pending : List Nat) (prog : List Op),
      (scanOnce extra prog pending).2.2 = false →
      (scanOnce extra prog pending).1 = prog ∧
      (scanOnce extra prog pending).2.1 = pending ∧
      (∀ id ∈ pending, ∀ op, findOp prog id = some op →
        useEmptyIn prog extra op = false)
  | [], prog, _ => ⟨rfl, rfl, fun id h => absurd h (by simp)⟩
  | opId :: rest, prog, hch => by
    cases hf : findOp prog opId with
    | none =>
      rw [scanOnce_cons_none rest hf] at hch ⊢
      obtain ⟨h1, h2, h3⟩ := scanOnce_unchanged rest prog hch
      refine ⟨h1, by rw [h2], ?_⟩
      intro id hid op hop
      rcases List.mem_cons.mp hid with rfl | hid'
      · rw [hf] at hop
        exact absurd hop (by simp)
      · exact h3 id hid' op hop
    | some checkOp =>
      by_cases hu : useEmptyIn prog extra checkOp
      · rw [scanOnce_cons_erase rest hf hu] at hch
        exact absurd hch (by simp)
      · rw [scanOnce_cons_keep rest hf (by simpa using hu)] at hch ⊢
        obtain ⟨h1, h2, h3⟩ := scanOnce_unchanged rest prog hch
        refine ⟨h1, by rw [h2], ?_⟩
        intro id hid op hop
        rcases List.mem_cons.mp hid with rfl | hid'
        · rw [hf] at hop
          rw [Option.some.injEq] at hop
          rw [← hop]
          simpa using hu
        · exact h3 id hid' op hop

theorem sweepN_trace {extra : List Value} {allowed : List Nat} :
    ∀ (fuel : Nat) (prog : List Op) (pending : List Nat),
      (∀ id ∈ pending, id ∈ allowed) →
      Relation.ReflTransGen (EraseStep extra allowed) prog
        (sweepN extra fuel prog pending).1
  | 0, prog, pending, _ => Relation.ReflTransGen.refl
  | fuel + 1, prog, pending, hsub => by
    rw [sweepN]
    by_cases hc : (scanOnce extra prog pending).2.2
    · rw [if_pos hc]
      refine Relation.ReflTransGen.trans (scanOnce_trace pending prog hsub) ?_
      exact sweepN_trace fuel _ _
        fun id h => hsub id (scanOnce_kept_subset pending prog h)
    · rw [if_neg hc]
      exact scanOnce_trace pending prog hsub

theorem sweepN_preserve {extra : List Value} :
    ∀ (fuel : Nat) (prog : List Op) (pending : List Nat) {op : Op},
      op ∈ prog → op.id ∉ pending → op ∈ (sweepN extra fuel prog pending).1
  | 0, prog, pending, op, hmem, _ => hmem
  | fuel + 1, prog, pending, op, hmem, hnot => by
    rw [sweepN]
    by_cases hc : (scanOnce extra prog pending).2.2
    · rw [if_pos hc]
      refine sweepN_preserve fuel _ _ (scanOnce_preserve pending prog hmem hnot) ?_
      intro hmem'
      exact hnot (scanOnce_kept_subset pending prog hmem')
    · rw [if_neg hc]
      exact scanOnce_preserve pending prog hmem hnot

theorem sweepN_kept_subset {extra : List Value} :
    ∀ (fuel : Nat) (prog : List Op) (pending : List Nat) {id : Nat},
      id ∈ (sweepN extra fuel prog pending).2 → id ∈ pending
  | 0, prog, pending, id, h => h
  | fuel + 1, prog, pending, id, h => by
    rw [sweepN] at h
    by_cases hc : (scanOnce extra prog pending).2.2
    · rw [if_pos hc] at h
      exact scanOnce_kept_subset pending prog (sweepN_kept_subset fuel _ _ h)
    · rw [if_neg hc] at h
      exact scanOnce_kept_subset pending prog h

theorem sweepN_fixpoint {extra : List Value} :
    ∀ (fuel : Nat) (prog : List Op) (pending : List Nat),
      pending.length < fuel →
      ∀ id ∈ (sweepN extra fuel prog pending).2, ∀ op,
        findOp (sweepN extra fuel prog pending).1 id = some op →
        useEmptyIn (sweepN extra fuel prog pending).1 extra op = false
  | 0, prog, pending, hfuel => by omega
  | fuel + 1, prog, pending, hfuel => by
    rw [sweepN]
    by_cases hc : (scanOnce extra prog pending).2.2
    · rw [if_pos hc]
      refine sweepN_fixpoint fuel _ _ ?_
      have := (@scanOnce_kept_length extra pending prog).2 hc
      omega
    · rw [if_neg hc]
      obtain ⟨h1, h2, h3⟩ := scanOnce_unchanged pending prog (by simpa using hc)
      intro id hid op hop
      rw [h2] at hid
      rw [h1] at hop ⊢
      exact h3 id hid op hop

/-- C8: the dead-op sweeper reaches a fixed point by a sequence of single
erasures, each of an operation of the snapshot set that is use-free at the
moment it is erased; at the fixed point no operation remaining in the
working set is use-free, operations outside the set are never erased, and
the final working set is a subset of the snapshot.  `cleanupDeadOps` is
exactly this sweep on the const-expr snapshot. -/
theorem dead_sweep_fixpoint (extra : List Value) (prog : List Op) (pending : List Nat) :
    Relation.ReflTransGen (EraseStep extra pending) prog (sweepLoop extra prog pending).1 ∧
    (∀ id ∈ (sweepLoop extra prog pending).2, ∀ op,
      findOp (sweepLoop extra prog pending).1 id = some op →
      useEmptyIn (sweepLoop extra prog pending).1 extra op = false) ∧
    (∀ op ∈ prog, op.id ∉ pending → op ∈ (sweepLoop extra prog pending).1) ∧
    (∀ id ∈ (sweepLoop extra prog pending).2, id ∈ pending) ∧
    (∀ (an : Analysis) (s : ModuleState), cleanupDeadOps an s =
      { s with prog :=
          (sweepLoop (initOrigUses s.inits) s.prog (constExprOpIds an s.prog)).1 }) := by
  refine ⟨sweepN_trace _ prog pending (fun id h => h), ?_,
    fun op hmem hnot => sweepN_preserve _ prog pending hmem hnot,
    fun id h => sweepN_kept_subset _ prog pending h,
    fun an s => rfl⟩
  exact sweepN_fixpoint (pending.length + 1) prog pending (Nat.lt_succ_self _)

/-! Identity behaviour of the pass (C9). -/

theorem processOp_id {an : Analysis} {s : ModuleState} {opId : Nat}
    (h : hoistableLeaf an opId = false) : processOp an s opId = s := by
  rw [processOp, if_neg (by simp [h])]

theorem walkAll_id {an : Analysis} :
    ∀ (ids : List Nat) (s : ModuleState), (∀ id ∈ ids, hoistableLeaf an id = false) →
      walkAll an s ids = s
  | [], s, _ => rfl
  | id :: rest, s, h => by
    rw [walkAll, List.foldl_cons, processOp_id (h id (List.mem_cons_self _ _))]
    exact walkAll_id rest s fun id' h' => h id' (List.mem_cons_of_mem _ h')

theorem scanOnce_no_erase {extra : List Value} :
    ∀ (pending : List Nat) (prog : List Op),
      (∀ id ∈ pending, ∀ op, findOp prog id = some op →
        useEmptyIn prog extra op = false) →
      scanOnce extra prog pending = (prog, pending, false)
  | [], prog, _ => rfl
  | opId :: rest, prog, h => by
    cases hf : findOp prog opId with
    | none =>
      rw [scanOnce_cons_none rest hf,
        scanOnce_no_erase rest prog fun id h' => h id (List.mem_cons_of_mem _ h')]
    | some checkOp =>
      have hu : useEmptyIn prog extra checkOp = false :=
        h opId (List.mem_cons_self _ _) checkOp hf
      rw [scanOnce_cons_keep rest hf hu,
        scanOnce_no_erase rest prog fun id h' => h id (List.mem_cons_of_mem _ h')]

/-- C9 counterexample: a module whose only operation is an already-unused
const-expr root rejected as a hoistable leaf.  The walk rewrites nothing,
yet the dead-op sweep erases the operation, so the pass is not the identity
on this input even though no operation qualifies as a hoistable const-expr
leaf. -/
theorem pass_not_identity_counterexample :
    (∀ op ∈ [(⟨0, OpKind.original, [0], []⟩ : Op)],
      hoistableLeaf
        ⟨fun n => if n = 0 then some ⟨true, true⟩ else none, fun _ => false,
          fun _ _ => true⟩ op.id = false) ∧
    (runPass
        ⟨fun n => if n = 0 then some ⟨true, true⟩ else none, fun _ => false,
          fun _ _ => true⟩
        [(⟨0, OpKind.original, [0], []⟩ : Op)]).prog ≠
      [(⟨0, OpKind.original, [0], []⟩ : Op)] := by
  constructor
  · decide
  · decide

/-- C9 (amended): if no operation of the module qualifies as a hoistable
const-expr leaf and, in addition, every const-expr operation still has at
least one use, the pass is the identity transformation on the module. -/
theorem pass_identity_when_no_leaf_and_no_dead
    (an : Analysis) (p : List Op)
    (hleaf : ∀ op ∈ p, hoistableLeaf an op.id = false)
    (hlive : ∀ op ∈ p, isConstExprOp an op = true → useEmptyIn p [] op = false) :
    runPass an p = initState p := by
  have hwalk : walkAll an (initState p) (p.map Op.id) = initState p := by
    refine walkAll_id (p.map Op.id) (initState p) ?_
    intro id hid
    rcases List.mem_map.mp hid with ⟨op, hop, rfl⟩
    exact hleaf op hop
  rw [runPass, hwalk]
  have hfix : ∀ id ∈ constExprOpIds an p, ∀ op, findOp p id = some op →
      useEmptyIn p (initOrigUses ([] : List Initializer)) op = false := by
    intro id hid op hop
    rcases List.mem_map.mp hid with ⟨op', hop', hid'⟩
    have hconst' : isConstExprOp an op' = true := List.of_mem_filter hop'
    have hconst : isConstExprOp an op = true := by
      rw [isConstExprOp, findOp_id hop, ← hid', ← isConstExprOp]
      exact hconst'
    exact hlive op (findOp_mem hop) hconst
  have hscan : scanOnce (initOrigUses (initState p).inits) p (constExprOpIds an p) =
      (p, constExprOpIds an p, false) := scanOnce_no_erase _ p hfix
  show cleanupDeadOps an (initState p) = initState p
  rw [cleanupDeadOps]
  have hsweep : (sweepLoop (initOrigUses (initState p).inits) (initState p).prog
      (constExprOpIds an (initState p).prog)).1 = p := by
    show (sweepN _ _ p (constExprOpIds an p)).1 = p
    rw [sweepN, hscan]
    simp
  rw [hsweep]
  rfl

/-! Concrete witnesses exercising the claim theorems. -/

theorem memo_table_all_or_none_witness :
    ((progB.map Op.id).Nodup ∧
      Relation.ReflTransGen HoistStep (initState progB) (initState progB)) ∧
    (AllOrNone (initState progB) ∧
      Relation.ReflTransGen HoistStep (initState progB)
        (walkAll anB (initState progB) (progB.map Op.id))) :=
  ⟨⟨by decide, Relation.ReflTransGen.refl⟩,
   memo_table_all_or_none anB progB (initState progB) (by decide)
     Relation.ReflTransGen.refl⟩

theorem dead_sweep_fixpoint_witness :
    ((1 ∈ (sweepLoop []
        [⟨0, OpKind.original, [7], []⟩, ⟨1, OpKind.original, [7], []⟩,
         ⟨2, OpKind.original, [], [Value.result 1 0]⟩] [0, 1]).2) ∧
      findOp (sweepLoop []
        [⟨0, OpKind.original, [7], []⟩, ⟨1, OpKind.original, [7], []⟩,
         ⟨2, OpKind.original, [], [Value.result 1 0]⟩] [0, 1]).1 1 =
        some ⟨1, OpKind.original, [7], []⟩ ∧
      useEmptyIn (sweepLoop []
        [⟨0, OpKind.original, [7], []⟩, ⟨1, OpKind.original, [7], []⟩,
         ⟨2, OpKind.original, [], [Value.result 1 0]⟩] [0, 1]).1 []
        ⟨1, OpKind.original, [7], []⟩ = false) ∧
    ((⟨2, OpKind.original, [], [Value.result 1 0]⟩ : Op) ∈
        [⟨0, OpKind.original, [7], []⟩, ⟨1, OpKind.original, [7], []⟩,
         ⟨2, OpKind.original, [], [Value.result 1 0]⟩] ∧
      (⟨2, OpKind.original, [], [Value.result 1 0]⟩ : Op).id ∉ [0, 1] ∧
      (⟨2, OpKind.original, [], [Value.result 1 0]⟩ : Op) ∈ (sweepLoop []
        [⟨0, OpKind.original, [7], []⟩, ⟨1, OpKind.original, [7], []⟩,
         ⟨2, OpKind.original, [], [Value.result 1 0]⟩] [0, 1]).1) :=
  ⟨⟨by decide, by decide,
    (dead_sweep_fixpoint []
      [⟨0, OpKind.original, [7], []⟩, ⟨1, OpKind.original, [7], []⟩,
       ⟨2, OpKind.original, [], [Value.result 1 0]⟩] [0, 1]).2.1 1 (by decide)
      ⟨1, OpKind.original, [7], []⟩ (by decide)⟩,
   ⟨by decide, by decide,
    (dead_sweep_fixpoint []
      [⟨0, OpKind.original, [7], []⟩, ⟨1, OpKind.original, [7], []⟩,
       ⟨2, OpKind.original, [], [Value.result 1 0]⟩] [0, 1]).2.2.1
      ⟨2, OpKind.original, [], [Value.result 1 0]⟩ (by decide) (by decide)⟩⟩

theorem pass_identity_witness :
    ((∀ op ∈ [(⟨0, OpKind.original, [7], []⟩ : Op)],
        hoistableLeaf ⟨fun _ => none, fun _ => false, fun _ _ => true⟩ op.id = false) ∧
      (∀ op ∈ [(⟨0, OpKind.original, [7], []⟩ : Op)],
        isConstExprOp ⟨fun _ => none, fun _ => false, fun _ _ => true⟩ op = true →
        useEmptyIn [(⟨0, OpKind.original, [7], []⟩ : Op)] [] op = false)) ∧
    runPass ⟨fun _ => none, fun _ => false, fun _ _ => true⟩
      [(⟨0, OpKind.original, [7], []⟩ : Op)] =
      initState [(⟨0, OpKind.original, [7], []⟩ : Op)] :=
  ⟨⟨by decide, by decide⟩,
   pass_identity_when_no_leaf_and_no_dead ⟨fun _ => none, fun _ => false, fun _ _ => true⟩
     [(⟨0, OpKind.original, [7], []⟩ : Op)] (by decide) (by decide)⟩

theorem atomic_multi_result_hoist_witness :
    (findOp (initState progB).prog 2 =
      some ⟨2, OpKind.original, [7], [Value.result 0 0, Value.result 1 0]⟩) ∧
    ((cloneConstExprInto (initState progB) (Value.result 2 0)).globals =
      newGlobalsFor (initState progB).nextSym
        ⟨2, OpKind.original, [7], [Value.result 0 0, Value.result 1 0]⟩ ++
        (initState progB).globals ∧
    (newGlobalsFor (initState progB).nextSym
      ⟨2, OpKind.original, [7], [Value.result 0 0, Value.result 1 0]⟩).length =
      (⟨2, OpKind.original, [7], [Value.result 0 0, Value.result 1 0]⟩ : Op).resultTypes.length ∧
    (∀ t < (⟨2, OpKind.original, [7], [Value.result 0 0, Value.result 1 0]⟩ : Op).resultTypes.length,
      (newGlobalsFor (initState progB).nextSym
        ⟨2, OpKind.original, [7], [Value.result 0 0, Value.result 1 0]⟩).get? t =
        some ⟨(initState progB).nextSym + t,
          ((⟨2, OpKind.original, [7], [Value.result 0 0, Value.result 1 0]⟩ : Op).resultTypes.get? t).getD 0⟩) ∧
    ((newGlobalsFor (initState progB).nextSym
      ⟨2, OpKind.original, [7], [Value.result 0 0, Value.result 1 0]⟩).map GlobalOp.sym).Nodup ∧
    (cloneConstExprInto (initState progB) (Value.result 2 0)).inits =
      (initState progB).inits ++
        [newInitFor (initState progB) 2
          ⟨2, OpKind.original, [7], [Value.result 0 0, Value.result 1 0]⟩] ∧
    initStoreSyms (newInitFor (initState progB) 2
        ⟨2, OpKind.original, [7], [Value.result 0 0, Value.result 1 0]⟩) =
      (List.range (⟨2, OpKind.original, [7], [Value.result 0 0, Value.result 1 0]⟩ : Op).resultTypes.length).map
        ((initState progB).nextSym + ·) ∧
    (∀ t < (⟨2, OpKind.original, [7], [Value.result 0 0, Value.result 1 0]⟩ : Op).resultTypes.length,
      (initStoreSyms (newInitFor (initState progB) 2
        ⟨2, OpKind.original, [7], [Value.result 0 0, Value.result 1 0]⟩)).count
        ((initState progB).nextSym + t) = 1) ∧
    (∀ t < (⟨2, OpKind.original, [7], [Value.result 0 0, Value.result 1 0]⟩ : Op).resultTypes.length,
      alookup (cloneConstExprInto (initState progB) (Value.result 2 0)).hoisted
        (Value.result 2 t) = some ((initState progB).nextSym + t)) ∧
    (∀ (s0 s' : ModuleState), Relation.ReflTransGen HoistStep s0 s' →
      ∀ g ∈ s0.globals, g ∈ s'.globals) ∧
    (∀ (an : Analysis) (p : List Op),
      (runPass an p).globals = (walkAll an (initState p) (p.map Op.id)).globals)) :=
  ⟨by decide,
   atomic_multi_result_hoist (initState progB) 2 0
     ⟨2, OpKind.original, [7], [Value.result 0 0, Value.result 1 0]⟩ (by decide)⟩

theorem hoistConstExpr_frame_single_operand_witness :
    (WFState (initState progB) ∧
      operandAt (initState progB).prog 3 0 = some (Value.result 2 0) ∧
      findOp (initState progB).prog 2 =
        some ⟨2, OpKind.original, [7], [Value.result 0 0, Value.result 1 0]⟩ ∧
      0 < (⟨2, OpKind.original, [7], [Value.result 0 0, Value.result 1 0]⟩ : Op).resultTypes.length) ∧
    (∃ pre post owner lop sym,
      (initState progB).prog = pre ++ owner :: post ∧ owner.id = 3 ∧
      Op.id lop = (initState progB).nextOpId ∧ Op.kind lop = OpKind.globalLoad sym ∧
      Op.operands lop = [] ∧
      (hoistConstExpr (initState progB) 3 0).prog =
        pre ++ lop ::
          { owner with operands := owner.operands.set 0 (Value.result lop.id 0) } :: post ∧
      (∀ j, j ≠ 0 →
        (owner.operands.set 0 (Value.result lop.id 0)).get? j = owner.operands.get? j) ∧
      (∃ gs, (hoistConstExpr (initState progB) 3 0).globals = gs ++ (initState progB).globals) ∧
      ((hoistConstExpr (initState progB) 3 0).inits = (initState progB).inits ∨
        ∃ ini, (hoistConstExpr (initState progB) 3 0).inits = (initState progB).inits ++ [ini])) :=
  ⟨⟨⟨by decide, by decide⟩, by decide, by decide, by decide⟩,
   hoistConstExpr_frame_single_operand (initState progB) 3 0 2 0
     ⟨2, OpKind.original, [7], [Value.result 0 0, Value.result 1 0]⟩
     ⟨by decide, by decide⟩ (by decide) (by decide) (by decide)⟩

theorem hoist_memoization_single_global_witness :
    (WFState (initState progB) ∧
      operandAt (initState progB).prog 3 0 = some (Value.result 2 0) ∧
      operandAt (initState progB).prog 4 0 = some (Value.result 2 0) ∧
      ¬(4 = 3 ∧ 0 = 0) ∧
      findOp (initState progB).prog 2 =
        some ⟨2, OpKind.original, [7], [Value.result 0 0, Value.result 1 0]⟩ ∧
      0 < (⟨2, OpKind.original, [7], [Value.result 0 0, Value.result 1 0]⟩ : Op).resultTypes.length ∧
      alookup (initState progB).hoisted (Value.result 2 0) = none) ∧
    (∃ sym,
      alookup (hoistConstExpr (initState progB) 3 0).hoisted (Value.result 2 0) = some sym ∧
      (hoistConstExpr (initState progB) 3 0).inits.length =
        (initState progB).inits.length + 1 ∧
      sym ∈ declaredSyms (hoistConstExpr (initState progB) 3 0) ∧
      (hoistConstExpr (hoistConstExpr (initState progB) 3 0) 4 0).globals =
        (hoistConstExpr (initState progB) 3 0).globals ∧
      (hoistConstExpr (hoistConstExpr (initState progB) 3 0) 4 0).inits =
        (hoistConstExpr (initState progB) 3 0).inits ∧
      (hoistConstExpr (hoistConstExpr (initState progB) 3 0) 4 0).hoisted =
        (hoistConstExpr (initState progB) 3 0).hoisted ∧
      ∃ l1 l2 lop1 lop2, l1 ≠ l2 ∧
        operandAt (hoistConstExpr (hoistConstExpr (initState progB) 3 0) 4 0).prog 3 0 =
          some (Value.result l1 0) ∧
        operandAt (hoistConstExpr (hoistConstExpr (initState progB) 3 0) 4 0).prog 4 0 =
          some (Value.result l2 0) ∧
        findOp (hoistConstExpr (hoistConstExpr (initState progB) 3 0) 4 0).prog l1 =
          some lop1 ∧
        Op.kind lop1 = OpKind.globalLoad sym ∧
        findOp (hoistConstExpr (hoistConstExpr (initState progB) 3 0) 4 0).prog l2 =
          some lop2 ∧
        Op.kind lop2 = OpKind.globalLoad sym) :=
  ⟨⟨⟨by decide, by decide⟩, by decide, by decide, by decide, by decide, by decide, by decide⟩,
   hoist_memoization_single_global (initState progB) 3 0 4 0 2 0
     ⟨2, OpKind.original, [7], [Value.result 0 0, Value.result 1 0]⟩
     ⟨by decide, by decide⟩ (by decide) (by decide) (by decide) (by decide) (by decide)
     (by decide)⟩

theorem escape_rewrite_characterization_witness :
    (WFState (initState progB) ∧
      findOp (initState progB).prog 2 =
        some ⟨2, OpKind.original, [7], [Value.result 0 0, Value.result 1 0]⟩ ∧
      0 < (⟨2, OpKind.original, [7], [Value.result 0 0, Value.result 1 0]⟩ : Op).resultTypes.length ∧
      operandAt (initState progB).prog 3 0 = some (Value.result 2 0)) ∧
    ((hoistableLeaf anB 2 = false → processOp anB (initState progB) 2 = initState progB) ∧
      ((skipConsumer anB 3 = true ∨ anB.operandOK 3 0 = false) →
        operandAt (processOp anB (initState progB) 2).prog 3 0 =
          some (Value.result 2 0)) ∧
      (hoistableLeaf anB 2 = true → skipConsumer anB 3 = false →
        anB.operandOK 3 0 = true →
        ∃ l lop sym, (initState progB).nextOpId ≤ l ∧
          operandAt (processOp anB (initState progB) 2).prog 3 0 =
            some (Value.result l 0) ∧
          findOp (processOp anB (initState progB) 2).prog l = some lop ∧
          Op.id lop = l ∧ Op.kind lop = OpKind.globalLoad sym ∧ Op.operands lop = [])) :=
  ⟨⟨⟨by decide, by decide⟩, by decide, by decide, by decide⟩,
   escape_rewrite_characterization anB (initState progB) 2 0 3 0
     ⟨2, OpKind.original, [7], [Value.result 0 0, Value.result 1 0]⟩
     ⟨by decide, by decide⟩ (by decide) (by decide) (by decide)⟩

theorem initializer_topological_order_witness :
    ((∀ op ∈ progC, op.kind = OpKind.original) ∧
      (runPass anC progC).inits.get? 0 =
        some ⟨[InitItem.clonedOp 0 OpKind.original [],
          InitItem.clonedOp 1 OpKind.original [IVal.cloneRes 0 0],
          InitItem.store 0 (IVal.cloneRes 1 0), InitItem.ret]⟩ ∧
      (runPass anC progC).inits.get? 1 =
        some ⟨[InitItem.clonedOp 0 OpKind.original [], InitItem.load 0,
          InitItem.clonedOp 2 OpKind.original [IVal.loadRes 0],
          InitItem.store 1 (IVal.cloneRes 2 0), InitItem.ret]⟩ ∧
      0 ∈ initStoreSyms ⟨[InitItem.clonedOp 0 OpKind.original [],
        InitItem.clonedOp 1 OpKind.original [IVal.cloneRes 0 0],
        InitItem.store 0 (IVal.cloneRes 1 0), InitItem.ret]⟩ ∧
      0 ∈ initLoadSyms ⟨[InitItem.clonedOp 0 OpKind.original [], InitItem.load 0,
        InitItem.clonedOp 2 OpKind.original [IVal.loadRes 0],
        InitItem.store 1 (IVal.cloneRes 2 0), InitItem.ret]⟩) ∧
    (0 : Nat) < 1 :=
  ⟨⟨by decide, by decide, by decide, by decide, by decide⟩,
   initializer_topological_order anC progC (by decide) 0 1
     ⟨[InitItem.clonedOp 0 OpKind.original [],
       InitItem.clonedOp 1 OpKind.original [IVal.cloneRes 0 0],
       InitItem.store 0 (IVal.cloneRes 1 0), InitItem.ret]⟩
     ⟨[InitItem.clonedOp 0 OpKind.original [], InitItem.load 0,
       InitItem.clonedOp 2 OpKind.original [IVal.loadRes 0],
       InitItem.store 1 (IVal.cloneRes 2 0), InitItem.ret]⟩
     0 (by decide) (by decide) (by decide) (by decide)⟩

theorem global_placement_witness :
    ((∀ op ∈ progC, op.kind = OpKind.original) ∧
      (moduleItems (runPass anC progC)).get? 7 =
        some (ModuleItem.initOp ⟨[InitItem.clonedOp 0 OpKind.original [],
          InitItem.load 0, InitItem.clonedOp 2 OpKind.original [IVal.loadRes 0],
          InitItem.store 1 (IVal.cloneRes 2 0), InitItem.ret]⟩) ∧
      0 ∈ itemLoadSyms (ModuleItem.initOp ⟨[InitItem.clonedOp 0 OpKind.original [],
        InitItem.load 0, InitItem.clonedOp 2 OpKind.original [IVal.loadRes 0],
        InitItem.store 1 (IVal.cloneRes 2 0), InitItem.ret]⟩)) ∧
    (∃ gidx g, gidx < 7 ∧
      (moduleItems (runPass anC progC)).get? gidx = some (ModuleItem.global g) ∧
      g.sym = 0) :=
  ⟨⟨by decide, by decide, by decide⟩,
   global_placement anC progC (by decide) 7
     (ModuleItem.initOp ⟨[InitItem.clonedOp 0 OpKind.original [],
       InitItem.load 0, InitItem.clonedOp 2 OpKind.original [IVal.loadRes 0],
       InitItem.store 1 (IVal.cloneRes 2 0), InitItem.ret]⟩)
     (by decide) 0 (by decide)⟩

theorem slice_cloner_step_witness :
    (1 ≤ (⟨2, OpKind.original, [7], [Value.result 0 0, Value.result 1 0]⟩ : Op).resultTypes.length) ∧
    (((∀ t < (⟨2, OpKind.original, [7], [Value.result 0 0, Value.result 1 0]⟩ : Op).resultTypes.length,
        (alookup [(Value.result 2 0, 5)]
          (Value.result (⟨2, OpKind.original, [7], [Value.result 0 0, Value.result 1 0]⟩ : Op).id t)).isSome = true) →
      (processSliceOp [(Value.result 2 0, 5)] ⟨[], [], 0⟩
          ⟨2, OpKind.original, [7], [Value.result 0 0, Value.result 1 0]⟩).body =
        ([] : List InitItem) ++
          (List.range (⟨2, OpKind.original, [7], [Value.result 0 0, Value.result 1 0]⟩ : Op).resultTypes.length).map
            (fun t => InitItem.load ((alookup [(Value.result 2 0, 5)]
              (Value.result (⟨2, OpKind.original, [7], [Value.result 0 0, Value.result 1 0]⟩ : Op).id t)).getD 0)) ∧
      (∀ t < (⟨2, OpKind.original, [7], [Value.result 0 0, Value.result 1 0]⟩ : Op).resultTypes.length,
        alookup (processSliceOp [(Value.result 2 0, 5)] ⟨[], [], 0⟩
            ⟨2, OpKind.original, [7], [Value.result 0 0, Value.result 1 0]⟩).cmap
          (Value.result (⟨2, OpKind.original, [7], [Value.result 0 0, Value.result 1 0]⟩ : Op).id t) =
          some (IVal.loadRes (0 + t))) ∧
      (processSliceOp [(Value.result 2 0, 5)] ⟨[], [], 0⟩
          ⟨2, OpKind.original, [7], [Value.result 0 0, Value.result 1 0]⟩).loadCount =
        0 + (⟨2, OpKind.original, [7], [Value.result 0 0, Value.result 1 0]⟩ : Op).resultTypes.length) ∧
    ((∀ t, alookup [(Value.result 2 0, 5)]
        (Value.result (⟨2, OpKind.original, [7], [Value.result 0 0, Value.result 1 0]⟩ : Op).id t) = none) →
      processSliceOp [(Value.result 2 0, 5)] ⟨[], [], 0⟩
          ⟨2, OpKind.original, [7], [Value.result 0 0, Value.result 1 0]⟩ =
        cloneOpInto ⟨2, OpKind.original, [7], [Value.result 0 0, Value.result 1 0]⟩ ⟨[], [], 0⟩) ∧
    (∀ (s : ModuleState) (rootId : Nat) (rootOp : Op) (w : Value) (i : Nat),
      findOp s.prog rootId = some rootOp →
      ((∀ t, w ≠ Value.result rootId t) →
        alookup (cloneConstExprInto s (Value.result rootId i)).hoisted w =
          alookup s.hoisted w) ∧
      (newInitFor s rootId rootOp).body =
        ((getBackwardSlice s.prog rootOp).foldl (processSliceOp s.hoisted)
          ⟨[], [], 0⟩).body ++
        [InitItem.clonedOp rootOp.id rootOp.kind
          (rootOp.operands.map (remapOperand
            ((getBackwardSlice s.prog rootOp).foldl (processSliceOp s.hoisted)
              ⟨[], [], 0⟩).cmap))] ++
        ((List.range rootOp.resultTypes.length).map fun t =>
          InitItem.store (s.nextSym + t)
            (remapOperand (sliceClone s rootOp).cmap (Value.result rootId t))) ++
        [InitItem.ret])) :=
  ⟨by decide,
   slice_cloner_step [(Value.result 2 0, 5)] ⟨[], [], 0⟩
     ⟨2, OpKind.original, [7], [Value.result 0 0, Value.result 1 0]⟩ (by decide)⟩

end HoistGlobals
